import Mathlib

set_option maxHeartbeats 1000000

/-!
Verification of the linkura-generic-strings-translation tool.

The development shallowly embeds the Python sources:
* `src/gentodo/__init__.py` — Japanese-text extraction and todo generation
* `src/generate/__init__.py` — translation merging
* `src/generate/analyze.py` — progress analysis and README badge update

JSON values are modelled by a mutual inductive type so that all operations are
structurally recursive and computable.
-/

namespace Linkura

mutual

inductive Json where
  | null : Json
  | bool (b : Bool) : Json
  | num (n : Int) : Json
  | str (s : String) : Json
  | arr (xs : JsonList) : Json
  | obj (fs : JsonFields) : Json
  deriving DecidableEq

inductive JsonList where
  | nil : JsonList
  | cons (hd : Json) (tl : JsonList) : JsonList
  deriving DecidableEq

inductive JsonFields where
  | nil : JsonFields
  | cons (k : String) (v : Json) (tl : JsonFields) : JsonFields
  deriving DecidableEq

end

/-- Structural induction over the field list only (values left untouched). -/
@[induction_eliminator]
theorem JsonFields.inductionFields {motive : JsonFields → Prop}
    (nil : motive .nil)
    (cons : ∀ (k : String) (v : Json) (tl : JsonFields), motive tl → motive (.cons k v tl)) :
    ∀ fs, motive fs
  | .nil => nil
  | .cons k v tl => cons k v tl (inductionFields nil cons tl)

/-- Structural induction over the element list only. -/
@[induction_eliminator]
theorem JsonList.inductionElems {motive : JsonList → Prop}
    (nil : motive .nil)
    (cons : ∀ (hd : Json) (tl : JsonList), motive tl → motive (.cons hd tl)) :
    ∀ xs, motive xs
  | .nil => nil
  | .cons hd tl => cons hd tl (inductionElems nil cons tl)

/-- Lookup of a key in a Python dict (first match; dicts from `json.load` have
unique keys). -/
def lookupKey : JsonFields → String → Option Json
  | .nil, _ => none
  | .cons k v tl, key => if k = key then some v else lookupKey tl key

/-- `key in dict` in Python. -/
def hasKey (fs : JsonFields) (key : String) : Bool :=
  (lookupKey fs key).isSome

def JsonList.toList : JsonList → List Json
  | .nil => []
  | .cons x xs => x :: xs.toList

/-! ## `src/gentodo/__init__.py`: Unicode-escape decoding -/

/-- Hexadecimal digit test, as in the regex character class `[0-9a-fA-F]`. -/
def isHexDig (c : Char) : Bool :=
  (0x30 ≤ c.toNat ∧ c.toNat ≤ 0x39) ∨ (0x61 ≤ c.toNat ∧ c.toNat ≤ 0x66) ∨
    (0x41 ≤ c.toNat ∧ c.toNat ≤ 0x46)

/-- Numeric value of a hexadecimal digit. -/
def hexVal (c : Char) : Nat :=
  if 0x30 ≤ c.toNat ∧ c.toNat ≤ 0x39 then c.toNat - 0x30
  else if 0x61 ≤ c.toNat ∧ c.toNat ≤ 0x66 then c.toNat - 0x61 + 10
  else c.toNat - 0x41 + 10

/-- Attempt a regex match of `\\u([0-9a-fA-F]{4})` at the head of the list:
on success, the decoded character `chr(int(hex, 16))` and the remainder. -/
def escHead : List Char → Option (Char × List Char)
  | '\\' :: 'u' :: a :: b :: c :: d :: rest =>
      if isHexDig a ∧ isHexDig b ∧ isHexDig c ∧ isHexDig d then
        some (Char.ofNat (((hexVal a * 16 + hexVal b) * 16 + hexVal c) * 16 + hexVal d),
          rest)
      else none
  | _ => none

/-- `decode_unicode_escapes`: replace every non-overlapping occurrence of the
regex `\\u([0-9a-fA-F]{4})` by `chr(int(hex, 16))`, scanning left to right
like `re.sub`: on a match the scan continues past it, otherwise it advances
one character.  The fuel argument (`≥` length of the list) only drives the
recursion. -/
def decodeAux : Nat → List Char → List Char
  | 0, cs => cs
  | _ + 1, [] => []
  | n + 1, c :: rest =>
      match escHead (c :: rest) with
      | some (ch, rest') => ch :: decodeAux n rest'
      | none => c :: decodeAux n rest

/-- Same scan shape as `decodeAux`, merely reporting whether a decodable
`\uXXXX` escape occurs anywhere. -/
def hasEscAux : Nat → List Char → Bool
  | 0, _ => false
  | _ + 1, [] => false
  | n + 1, c :: rest =>
      match escHead (c :: rest) with
      | some _ => true
      | none => hasEscAux n rest

def decodeChars (cs : List Char) : List Char :=
  decodeAux cs.length cs

def decode_unicode_escapes (s : String) : String :=
  ⟨decodeChars s.data⟩

def hasEscape (s : String) : Bool :=
  hasEscAux s.data.length s.data

/-! ## `is_japanese_text` -/

/-- A code point lies in one of the four ranges of `is_japanese_text`:
Hiragana, Katakana, CJK Unified Ideographs, Halfwidth/Fullwidth Forms. -/
def isJapaneseChar (c : Char) : Bool :=
  let n := c.toNat
  (0x3040 ≤ n ∧ n ≤ 0x309F) ∨ (0x30A0 ≤ n ∧ n ≤ 0x30FF) ∨
    (0x4E00 ≤ n ∧ n ≤ 0x9FAF) ∨ (0xFF00 ≤ n ∧ n ≤ 0xFFEF)

/-- `is_japanese_text`: true iff some character falls in a Japanese range.
The `if not text` guard coincides with `any` being false on the empty list. -/
def is_japanese_text (s : String) : Bool :=
  s.data.any isJapaneseChar

/-! ## Python `str.strip()` truthiness -/

/-- The characters Python's `str.strip()` removes (`str.isspace`). -/
def pyWhitespace : List Char :=
  ['\t', '\n', '\x0b', '\x0c', '\r', '\x1c', '\x1d', '\x1e', '\x1f', ' ',
   '\x85', '\xa0', '\u1680', '\u2000', '\u2001', '\u2002', '\u2003',
   '\u2004', '\u2005', '\u2006', '\u2007', '\u2008', '\u2009', '\u200a',
   '\u2028', '\u2029', '\u202f', '\u205f', '\u3000']

def isPyWs (c : Char) : Bool :=
  decide (c ∈ pyWhitespace)

/-- Truthiness of `text.strip()`: some character survives stripping. -/
def stripTruthy (s : String) : Bool :=
  s.data.any (fun c => !isPyWs c)

/-! ## The extractor `process_item` -/

/-- The string-leaf treatment shared by `process_item`'s string branch and its
`'value'`-field special case: guard on `item.strip()`, decode escapes, then
test for Japanese script; emit the decoded text. -/
def testStr (s : String) : List String :=
  if stripTruthy s then
    let d := decode_unicode_escapes s
    if is_japanese_text d then [d] else []
  else []

/-- The eager `'value'`-field emission of `process_item` on a dict. -/
def valueSpecial (fs : JsonFields) : List String :=
  match lookupKey fs "value" with
  | some (.str s) => testStr s
  | _ => []

mutual

/-- `process_item` (the `japanese_texts` list it appends to, in append order).
On dicts the `'value'` field is tested eagerly and then every value is visited
recursively — including the `'value'` field itself, a second time. -/
def extract_japanese_texts : Json → List String
  | .str s => testStr s
  | .arr xs => extractList xs
  | .obj fs => valueSpecial fs ++ extractFields fs
  | _ => []

def extractList : JsonList → List String
  | .nil => []
  | .cons x xs => extract_japanese_texts x ++ extractList xs

def extractFields : JsonFields → List String
  | .nil => []
  | .cons _ v fs => extract_japanese_texts v ++ extractFields fs

end

/-! ## De-duplication: `list(dict.fromkeys(texts))` -/

/-- One `dict.fromkeys` step: keep the first occurrence. -/
def dedupStep (acc : List String) (x : String) : List String :=
  if x ∈ acc then acc else acc ++ [x]

/-- `list(dict.fromkeys(texts))`: de-duplicate preserving first-occurrence
order. -/
def pyDedup (l : List String) : List String :=
  l.foldl dedupStep []

/-- Recursive characterization of first-occurrence de-duplication. -/
def dedupF : List String → List String
  | [] => []
  | x :: xs => x :: (dedupF xs).filter (fun y => y ≠ x)

/-! ## `src/generate/__init__.py`: the translation-record merger

`merge_translations` loads the raw array, the translation array and the
existing target store, builds `existing_map` (raw text → entry), then for each
index pairs the raw text with `translations[i] if i < len(translations) else ""`
and updates or appends a record.  The store is the JSON list loaded from the
target file.  Python dict assignment (`d[k] = v`) replaces the value in place
if the key exists and appends the pair at the end otherwise. -/

/-- Replace the value of every field named `k` (Python dicts are duplicate-free,
so at most one is replaced). -/
def replaceKey : JsonFields → String → Json → JsonFields
  | .nil, _, _ => .nil
  | .cons k' v' tl, k, v =>
      if k' = k then .cons k v (replaceKey tl k v) else .cons k' v' (replaceKey tl k v)

/-- Append a fresh field at the end (Python dict insertion order). -/
def appendKey : JsonFields → String → Json → JsonFields
  | .nil, k, v => .cons k v .nil
  | .cons k' v' tl, k, v => .cons k' v' (appendKey tl k v)

/-- `d[k] = v` on a Python dict. -/
def objSet (fs : JsonFields) (k : String) (v : Json) : JsonFields :=
  if hasKey fs k then replaceKey fs k v else appendKey fs k v

/-- `{'text': translation, 'author': author}`. -/
def mkTransEntry (text author : String) : Json :=
  .obj (.cons "text" (.str text) (.cons "author" (.str author) .nil))

/-- The update branch of the merge loop on an entry's fields:
`if 'translation' not in entry: entry['translation'] = {}` followed by
`entry['translation'][locale] = {'text': translation, 'author': author}`.
`none` models the `TypeError` raised (and caught, failing the command) when
`entry['translation']` is not a dict. -/
def updateEntryFields (locale author trans : String) (fs : JsonFields) :
    Option JsonFields :=
  let fs1 := if hasKey fs "translation" then fs else appendKey fs "translation" (.obj .nil)
  match lookupKey fs1 "translation" with
  | some (.obj tf) =>
      some (objSet fs1 "translation" (.obj (objSet tf locale (mkTransEntry trans author))))
  | _ => none

def updEntry (locale author trans : String) : Json → Option Json
  | .obj fs => (updateEntryFields locale author trans fs).map .obj
  | _ => none

/-- The raw string of a store entry, when the entry is a dict whose `'raw'`
value is a string (the only entries a raw text from the input array can match
in `existing_map`). -/
def rawOf : Json → Option String
  | .obj fs =>
      match lookupKey fs "raw" with
      | some (.str r) => some r
      | _ => none
  | _ => none

def isRawEntry (r : String) (e : Json) : Bool :=
  rawOf e = some r

/-- `raw_text in existing_map` for a raw text that is a string. -/
def memRaw (s : List Json) (r : String) : Bool :=
  s.any (isRawEntry r)

/-- Update the entry `existing_map[raw]` points to: the last store entry whose
`'raw'` value equals the raw text (later entries overwrite earlier map keys). -/
def updateLast (locale author r trans : String) : List Json → Option (List Json)
  | [] => none
  | e :: rest =>
      if memRaw rest r then (updateLast locale author r trans rest).map (e :: ·)
      else if isRawEntry r e then (updEntry locale author trans e).map (· :: rest)
      else none

/-- `{'raw': raw_text, 'translation': {locale: {'text': …, 'author': …}}}`. -/
def mkNewEntry (locale author r trans : String) : Json :=
  .obj (.cons "raw" (.str r)
    (.cons "translation" (.obj (.cons locale (mkTransEntry trans author) .nil)) .nil))

/-- One iteration of the merge loop. -/
def mergeOne (locale author : String) (s : List Json) (r trans : String) :
    Option (List Json) :=
  if memRaw s r then updateLast locale author r trans s
  else some (s ++ [mkNewEntry locale author r trans])

/-- The merge loop over the paired raw/translation texts. -/
def mergeLoop (locale author : String) : List (String × String) → List Json →
    Option (List Json)
  | [], s => some s
  | (r, t) :: ps, s =>
      match mergeOne locale author s r t with
      | some s' => mergeLoop locale author ps s'
      | none => none

/-- Pair each raw text with `translations[i] if i < len(translations) else ""`. -/
def padZip : List String → List String → List (String × String)
  | [], _ => []
  | r :: rs, [] => (r, "") :: padZip rs []
  | r :: rs, t :: ts => (r, t) :: padZip rs ts

/-- An entry whose `'raw'` value is a list or dict is unhashable: building
`existing_map` raises `TypeError` (caught; the command fails without writing). -/
def rawHashable : Json → Bool
  | .obj fs =>
      match lookupKey fs "raw" with
      | some (.arr _) => false
      | some (.obj _) => false
      | _ => true
  | _ => true

def hashableRaws (s : List Json) : Bool :=
  s.all rawHashable

/-- The store-level core of `merge_translations`: starting from the loaded
target data, return the list written back, or `none` when an exception is
caught (no write, exit code 1). -/
def merge_translations (locale author : String) (raws trans : List String)
    (store : List Json) : Option (List Json) :=
  if hashableRaws store then mergeLoop locale author (padZip raws trans) store
  else none

/-- The `len(raw_texts) != len(translations)` warning (line 40). -/
def mismatch_warning (raws trans : List String) : Bool :=
  raws.length ≠ trans.length

/-- Loading the target file (lines 44–53): absent file, invalid JSON and
non-list JSON all yield the empty store. -/
def loadStore : Option (Except Unit Json) → List Json
  | none => []
  | some (.error _) => []
  | some (.ok (.arr xs)) => xs.toList
  | some (.ok _) => []

/-- Exit code and written store of the merge command once both input arrays
have been read successfully. -/
def merge_result (locale author : String) (raws trans : List String)
    (store : List Json) : Nat × Option (List Json) :=
  match merge_translations locale author raws trans store with
  | some s' => (0, some s')
  | none => (1, none)

/-! ## Characterization of the merge loop

The loop is equivalent to a single positionwise update pass over the store
followed by appending one new record per first-seen unknown raw string.  The
value that sticks on a record is the translation paired with the *last*
occurrence of its raw string. -/

/-- Translation paired with the last occurrence of `r` in the pair list. -/
def lastVal? : List (String × String) → String → Option String
  | [], _ => none
  | (r', t) :: ps, r =>
      match lastVal? ps r with
      | some v => some v
      | none => if r' = r then some t else none

/-- Treatment of one store entry by the update pass: if the entry is the last
one carrying a raw string occurring in the pairs (no later entry in `rest`
carries it), it receives that raw string's final translation. -/
def updateHead (locale author : String) (ps : List (String × String))
    (rest : List Json) (e : Json) : Option Json :=
  match rawOf e with
  | some r =>
      if (ps.any (fun p => p.1 = r)) && !(memRaw rest r) then
        updEntry locale author ((lastVal? ps r).getD "") e
      else some e
  | none => some e

/-- Positionwise update pass: the last store entry carrying each raw string
occurring in the pairs receives that raw string's final translation. -/
def updateAll (locale author : String) (ps : List (String × String)) :
    List Json → Option (List Json)
  | [] => some []
  | e :: rest =>
      match updateAll locale author ps rest, updateHead locale author ps rest e with
      | some rest', some e' => some (e' :: rest')
      | _, _ => none

/-- Raw strings that trigger a fresh record: unknown ones, first occurrences
only, in raw-array order. -/
def newRaws (ps : List (String × String)) (s : List Json) : List String :=
  (dedupF (ps.map (·.1))).filter (fun r => !(memRaw s r))

/-- The records appended at the end of the store. -/
def newEntries (locale author : String) (ps : List (String × String))
    (s : List Json) : List Json :=
  (newRaws ps s).map (fun r => mkNewEntry locale author r ((lastVal? ps r).getD ""))

/-- Shape of the `'translation'` field an update can cope with: absent or a
dict.  Anything else raises `TypeError`. -/
def transShapeOk (fs : JsonFields) : Bool :=
  match lookupKey fs "translation" with
  | none => true
  | some (.obj _) => true
  | _ => false

/-- A store entry the merge loop can always process: hashable raw value and,
when the entry can be matched by a raw text, a well-shaped translation field. -/
def entryOk : Json → Bool
  | .obj fs =>
      match lookupKey fs "raw" with
      | some (.arr _) => false
      | some (.obj _) => false
      | some (.str _) => transShapeOk fs
      | _ => true
  | _ => true

/-- Stores on which `merge_translations` cannot raise. -/
def wfStore (s : List Json) : Bool :=
  s.all entryOk

/-- The last store entry whose `'raw'` value equals `r`. -/
def lastRawEntry : List Json → String → Option Json
  | [], _ => none
  | e :: rest, r =>
      match lastRawEntry rest r with
      | some e' => some e'
      | none => if isRawEntry r e then some e else none

/-- The `translation[locale]` value of a store entry, when present. -/
def localeEntryOf (e : Json) (l : String) : Option Json :=
  match e with
  | .obj fs =>
      match lookupKey fs "translation" with
      | some (.obj tf) => lookupKey tf l
      | _ => none
  | _ => none

/-! ## Lemmas about dict operations -/

theorem lookupKey_replaceKey_ne (fs : JsonFields) {k k' : String} (v : Json)
    (h : k' ≠ k) : lookupKey (replaceKey fs k v) k' = lookupKey fs k' := by
  induction fs with
  | nil => rfl
  | cons k0 v0 tl ih =>
      simp only [replaceKey]
      by_cases hk : k0 = k
      · subst hk
        simp [lookupKey, if_neg (Ne.symm h), ih]
      · simp only [if_neg hk, lookupKey]
        split <;> simp [ih]

theorem lookupKey_replaceKey_self (fs : JsonFields) {k : String} (v : Json)
    (h : hasKey fs k = true) : lookupKey (replaceKey fs k v) k = some v := by
  induction fs with
  | nil => simp [hasKey, lookupKey] at h
  | cons k0 v0 tl ih =>
      simp only [replaceKey]
      by_cases hk : k0 = k
      · subst hk; simp [lookupKey]
      · simp only [if_neg hk, lookupKey, if_neg hk]
        apply ih
        simpa [hasKey, lookupKey, if_neg hk] using h

theorem replaceKey_of_not_hasKey (fs : JsonFields) {k : String} (v : Json)
    (h : hasKey fs k = false) : replaceKey fs k v = fs := by
  induction fs with
  | nil => rfl
  | cons k0 v0 tl ih =>
      simp only [hasKey, lookupKey] at h
      by_cases hk : k0 = k
      · simp [hk] at h
      · simp only [replaceKey, if_neg hk]
        rw [ih]
        simpa [hasKey, if_neg hk] using h

theorem lookupKey_appendKey_ne (fs : JsonFields) {k k' : String} (v : Json)
    (h : k' ≠ k) : lookupKey (appendKey fs k v) k' = lookupKey fs k' := by
  induction fs with
  | nil => simp [appendKey, lookupKey, Ne.symm h]
  | cons k0 v0 tl ih =>
      simp only [appendKey, lookupKey]
      split <;> simp [ih]

theorem lookupKey_appendKey_self (fs : JsonFields) {k : String} (v : Json)
    (h : hasKey fs k = false) : lookupKey (appendKey fs k v) k = some v := by
  induction fs with
  | nil => simp [appendKey, lookupKey]
  | cons k0 v0 tl ih =>
      simp only [hasKey, lookupKey] at h
      by_cases hk : k0 = k
      · simp [hk] at h
      · simp only [appendKey, lookupKey, if_neg hk]
        apply ih
        simpa [hasKey, if_neg hk] using h

theorem lookupKey_objSet_self (fs : JsonFields) (k : String) (v : Json) :
    lookupKey (objSet fs k v) k = some v := by
  unfold objSet
  by_cases h : hasKey fs k = true
  · simp [h, lookupKey_replaceKey_self fs v h]
  · simp only [Bool.not_eq_true] at h
    simp [h, lookupKey_appendKey_self fs v h]

theorem lookupKey_objSet_ne (fs : JsonFields) {k k' : String} (v : Json)
    (h : k' ≠ k) : lookupKey (objSet fs k v) k' = lookupKey fs k' := by
  unfold objSet
  split
  · exact lookupKey_replaceKey_ne fs v h
  · exact lookupKey_appendKey_ne fs v h

theorem hasKey_objSet_self (fs : JsonFields) (k : String) (v : Json) :
    hasKey (objSet fs k v) k = true := by
  simp [hasKey, lookupKey_objSet_self]

theorem replaceKey_replaceKey (fs : JsonFields) (k : String) (v w : Json) :
    replaceKey (replaceKey fs k v) k w = replaceKey fs k w := by
  induction fs with
  | nil => rfl
  | cons k0 v0 tl ih =>
      by_cases hk : k0 = k
      · subst hk; simp [replaceKey, ih]
      · simp [replaceKey, if_neg hk, ih]

theorem replaceKey_appendKey (fs : JsonFields) {k : String} (v w : Json)
    (h : hasKey fs k = false) :
    replaceKey (appendKey fs k v) k w = appendKey fs k w := by
  induction fs with
  | nil => simp [appendKey, replaceKey]
  | cons k0 v0 tl ih =>
      simp only [hasKey, lookupKey] at h
      by_cases hk : k0 = k
      · simp [hk] at h
      · simp only [appendKey, replaceKey, if_neg hk]
        rw [ih]
        simpa [hasKey, if_neg hk] using h

theorem objSet_objSet (fs : JsonFields) (k : String) (v w : Json) :
    objSet (objSet fs k v) k w = objSet fs k w := by
  conv_lhs => rw [objSet]
  rw [if_pos (hasKey_objSet_self fs k v)]
  unfold objSet
  by_cases h : hasKey fs k = true
  · simp [h, replaceKey_replaceKey]
  · simp only [Bool.not_eq_true] at h
    simp [h, replaceKey_appendKey fs v w h]

/-! ## Lemmas about the entry update -/

theorem updateEntryFields_eq_of_has {l a t : String} {fs : JsonFields} {tf : JsonFields}
    (hl : lookupKey fs "translation" = some (.obj tf)) :
    updateEntryFields l a t fs =
      some (objSet fs "translation" (.obj (objSet tf l (mkTransEntry t a)))) := by
  have hh : hasKey fs "translation" = true := by simp [hasKey, hl]
  unfold updateEntryFields
  simp [hh, hl]

theorem updateEntryFields_eq_of_bad {l a t : String} {fs : JsonFields} {tv : Json}
    (hl : lookupKey fs "translation" = some tv) (hbad : ∀ tf, tv ≠ .obj tf) :
    updateEntryFields l a t fs = none := by
  have hh : hasKey fs "translation" = true := by simp [hasKey, hl]
  unfold updateEntryFields
  simp only [hh, if_true, hl]
  cases tv <;> first | rfl | exact absurd rfl (hbad _)

theorem updateEntryFields_eq_of_absent {l a t : String} {fs : JsonFields}
    (hl : lookupKey fs "translation" = none) :
    updateEntryFields l a t fs =
      some (objSet (appendKey fs "translation" (.obj .nil)) "translation"
        (.obj (objSet .nil l (mkTransEntry t a)))) := by
  have hh : hasKey fs "translation" = false := by simp [hasKey, hl]
  unfold updateEntryFields
  simp only [hh, Bool.false_eq_true, if_false]
  rw [lookupKey_appendKey_self fs _ hh]

theorem updateEntryFields_isSome (l a t : String) (fs : JsonFields) :
    (updateEntryFields l a t fs).isSome = transShapeOk fs := by
  cases hl : lookupKey fs "translation" with
  | none => rw [updateEntryFields_eq_of_absent hl]; simp [transShapeOk, hl]
  | some tv =>
      cases tv
      case obj tf => rw [updateEntryFields_eq_of_has hl]; simp [transShapeOk, hl]
      all_goals
        (rw [updateEntryFields_eq_of_bad hl (by intro _ hh; cases hh)]
         simp [transShapeOk, hl])

theorem updateEntryFields_frame {l a t : String} {fs fs' : JsonFields}
    (h : updateEntryFields l a t fs = some fs') {k : String}
    (hk : k ≠ "translation") : lookupKey fs' k = lookupKey fs k := by
  cases hl : lookupKey fs "translation" with
  | none =>
      rw [updateEntryFields_eq_of_absent hl] at h
      simp only [Option.some.injEq] at h
      subst h
      rw [lookupKey_objSet_ne _ _ hk, lookupKey_appendKey_ne _ _ hk]
  | some tv =>
      cases tv
      case obj tf =>
        rw [updateEntryFields_eq_of_has hl] at h
        simp only [Option.some.injEq] at h
        subst h
        rw [lookupKey_objSet_ne _ _ hk]
      all_goals
        (rw [updateEntryFields_eq_of_bad hl (by intro _ hh; cases hh)] at h
         cases h)

theorem updateEntryFields_abs {l a t : String} {fs fs' : JsonFields}
    (h : updateEntryFields l a t fs = some fs') (v : String) :
    updateEntryFields l a v fs' = updateEntryFields l a v fs := by
  cases hl : lookupKey fs "translation" with
  | none =>
      rw [updateEntryFields_eq_of_absent hl] at h
      simp only [Option.some.injEq] at h
      subst h
      rw [updateEntryFields_eq_of_has (lookupKey_objSet_self _ _ _),
        updateEntryFields_eq_of_absent hl, objSet_objSet, objSet_objSet]
  | some tv =>
      cases tv
      case obj tf =>
        rw [updateEntryFields_eq_of_has hl] at h
        simp only [Option.some.injEq] at h
        subst h
        rw [updateEntryFields_eq_of_has (lookupKey_objSet_self _ _ _),
          updateEntryFields_eq_of_has hl, objSet_objSet, objSet_objSet]
      all_goals
        (rw [updateEntryFields_eq_of_bad hl (by intro _ hh; cases hh)] at h
         cases h)

theorem updateEntryFields_locale {l a t : String} {fs fs' : JsonFields}
    (h : updateEntryFields l a t fs = some fs') :
    localeEntryOf (.obj fs') l = some (mkTransEntry t a) := by
  cases hl : lookupKey fs "translation" with
  | none =>
      rw [updateEntryFields_eq_of_absent hl] at h
      simp only [Option.some.injEq] at h
      subst h
      simp [localeEntryOf, lookupKey_objSet_self]
  | some tv =>
      cases tv
      case obj tf =>
        rw [updateEntryFields_eq_of_has hl] at h
        simp only [Option.some.injEq] at h
        subst h
        simp [localeEntryOf, lookupKey_objSet_self]
      all_goals
        (rw [updateEntryFields_eq_of_bad hl (by intro _ hh; cases hh)] at h
         cases h)

theorem updateEntryFields_locale_frame {l a t : String} {fs fs' : JsonFields}
    (h : updateEntryFields l a t fs = some fs') {l' : String} (hl' : l' ≠ l) :
    localeEntryOf (.obj fs') l' = localeEntryOf (.obj fs) l' := by
  cases hl : lookupKey fs "translation" with
  | none =>
      rw [updateEntryFields_eq_of_absent hl] at h
      simp only [Option.some.injEq] at h
      subst h
      simp [localeEntryOf, lookupKey_objSet_self, hl, lookupKey_objSet_ne _ _ hl',
        lookupKey, Ne.symm hl']
  | some tv =>
      cases tv
      case obj tf =>
        rw [updateEntryFields_eq_of_has hl] at h
        simp only [Option.some.injEq] at h
        subst h
        simp [localeEntryOf, lookupKey_objSet_self, hl, lookupKey_objSet_ne _ _ hl']
      all_goals
        (rw [updateEntryFields_eq_of_bad hl (by intro _ hh; cases hh)] at h
         cases h)

/-! ## Lemmas about `updEntry`, `mkNewEntry`, `memRaw`, `updateLast` -/

theorem updEntry_some_elim {l a t : String} {e e' : Json}
    (h : updEntry l a t e = some e') :
    ∃ fs fs', e = .obj fs ∧ updateEntryFields l a t fs = some fs' ∧ e' = .obj fs' := by
  cases e <;> try cases h
  rename_i fs
  simp only [updEntry] at h
  cases hu : updateEntryFields l a t fs with
  | none => rw [hu] at h; cases h
  | some fs' =>
      rw [hu] at h
      simp only [Option.map_some', Option.some.injEq] at h
      exact ⟨fs, fs', rfl, hu, h.symm⟩

theorem updEntry_rawOf {l a t : String} {e e' : Json}
    (h : updEntry l a t e = some e') : rawOf e' = rawOf e := by
  obtain ⟨fs, fs', rfl, hu, rfl⟩ := updEntry_some_elim h
  simp only [rawOf]
  rw [updateEntryFields_frame hu (by decide)]

theorem updEntry_rawHashable {l a t : String} {e e' : Json}
    (h : updEntry l a t e = some e') : rawHashable e' = rawHashable e := by
  obtain ⟨fs, fs', rfl, hu, rfl⟩ := updEntry_some_elim h
  simp only [rawHashable]
  rw [updateEntryFields_frame hu (by decide)]

theorem updEntry_isRawEntry {l a t : String} {e e' : Json}
    (h : updEntry l a t e = some e') (r : String) :
    isRawEntry r e' = isRawEntry r e := by
  simp [isRawEntry, updEntry_rawOf h]

theorem updEntry_abs {l a t : String} {e e' : Json}
    (h : updEntry l a t e = some e') (v : String) :
    updEntry l a v e' = updEntry l a v e := by
  obtain ⟨fs, fs', rfl, hu, rfl⟩ := updEntry_some_elim h
  simp only [updEntry]
  rw [updateEntryFields_abs hu]

theorem updEntry_locale {l a t : String} {e e' : Json}
    (h : updEntry l a t e = some e') :
    localeEntryOf e' l = some (mkTransEntry t a) := by
  obtain ⟨fs, fs', rfl, hu, rfl⟩ := updEntry_some_elim h
  exact updateEntryFields_locale hu

theorem updEntry_locale_frame {l a t : String} {e e' : Json}
    (h : updEntry l a t e = some e') {l' : String} (hl' : l' ≠ l) :
    localeEntryOf e' l' = localeEntryOf e l' := by
  obtain ⟨fs, fs', rfl, hu, rfl⟩ := updEntry_some_elim h
  exact updateEntryFields_locale_frame hu hl'

theorem updEntry_isSome {l a t : String} {e : Json} {r : String}
    (hr : rawOf e = some r) (hok : entryOk e = true) :
    (updEntry l a t e).isSome = true := by
  cases e <;> try cases hr
  rename_i fs
  have hts : (updateEntryFields l a t fs).isSome = true := by
    rw [updateEntryFields_isSome]
    simp only [rawOf] at hr
    simp only [entryOk] at hok
    cases hl : lookupKey fs "raw" with
    | none => rw [hl] at hr; cases hr
    | some v =>
        rw [hl] at hr hok
        cases v <;> try cases hr
        exact hok
  simp only [updEntry]
  cases hu : updateEntryFields l a t fs with
  | none => rw [hu] at hts; cases hts
  | some fs' => simp

theorem rawOf_mkNewEntry (l a r t : String) : rawOf (mkNewEntry l a r t) = some r := by
  simp [mkNewEntry, rawOf, lookupKey]

theorem rawHashable_mkNewEntry (l a r t : String) :
    rawHashable (mkNewEntry l a r t) = true := by
  simp [mkNewEntry, rawHashable, lookupKey]

theorem localeEntryOf_mkNewEntry (l a r t : String) :
    localeEntryOf (mkNewEntry l a r t) l = some (mkTransEntry t a) := by
  simp [mkNewEntry, localeEntryOf, lookupKey]

theorem updEntry_mkNewEntry (l a r t v : String) :
    updEntry l a v (mkNewEntry l a r t) = some (mkNewEntry l a r v) := by
  have hl : lookupKey
      (JsonFields.cons "raw" (.str r)
        (.cons "translation" (.obj (.cons l (mkTransEntry t a) .nil)) .nil))
      "translation" = some (.obj (.cons l (mkTransEntry t a) .nil)) := by
    simp [lookupKey]
  simp only [mkNewEntry, updEntry, updateEntryFields_eq_of_has hl]
  simp [objSet, hasKey, lookupKey, replaceKey, appendKey]

theorem memRaw_cons (e : Json) (rest : List Json) (r : String) :
    memRaw (e :: rest) r = (isRawEntry r e || memRaw rest r) := by
  simp [memRaw, List.any_cons]

theorem memRaw_append (xs ys : List Json) (r : String) :
    memRaw (xs ++ ys) r = (memRaw xs r || memRaw ys r) := by
  simp [memRaw, List.any_append]

theorem updateLast_memRaw {l a r t : String} : ∀ {s s₁ : List Json},
    updateLast l a r t s = some s₁ → ∀ x, memRaw s₁ x = memRaw s x := by
  intro s
  induction s with
  | nil => intro s₁ h; cases h
  | cons e rest ih =>
      intro s₁ h x
      unfold updateLast at h
      by_cases hm : memRaw rest r = true
      · rw [if_pos hm] at h
        cases hu : updateLast l a r t rest with
        | none => rw [hu] at h; cases h
        | some rest₁ =>
            rw [hu] at h
            simp only [Option.map_some', Option.some.injEq] at h
            subst h
            rw [memRaw_cons, memRaw_cons, ih hu]
      · rw [if_neg hm] at h
        by_cases he : isRawEntry r e = true
        · rw [if_pos he] at h
          cases hu : updEntry l a t e with
          | none => rw [hu] at h; cases h
          | some e' =>
              rw [hu] at h
              simp only [Option.map_some', Option.some.injEq] at h
              subst h
              rw [memRaw_cons, memRaw_cons, updEntry_isRawEntry hu]
        · rw [if_neg he] at h; cases h

/-! ## Lemmas about `lastVal?` -/

theorem lastVal_isSome (ps : List (String × String)) (r : String) :
    (lastVal? ps r).isSome = ps.any (fun p => p.1 = r) := by
  induction ps with
  | nil => rfl
  | cons p ps ih =>
      obtain ⟨r', t⟩ := p
      simp only [lastVal?]
      cases h : lastVal? ps r with
      | some v =>
          rw [h] at ih
          simp [List.any_cons, ← ih]
      | none =>
          rw [h] at ih
          simp only [List.any_cons, ← ih]
          by_cases hr : r' = r <;> simp [hr]

theorem lastVal_cons_ne {r' r : String} (t : String) (ps : List (String × String))
    (h : r' ≠ r) : lastVal? ((r', t) :: ps) r = lastVal? ps r := by
  simp only [lastVal?]
  cases lastVal? ps r <;> simp [h]

theorem lastVal_cons_of_any {r' r : String} (t : String) {ps : List (String × String)}
    (h : ps.any (fun p => p.1 = r) = true) :
    lastVal? ((r', t) :: ps) r = lastVal? ps r := by
  have hs := lastVal_isSome ps r
  rw [h] at hs
  simp only [lastVal?]
  cases hv : lastVal? ps r with
  | some v => rfl
  | none => rw [hv] at hs; cases hs

theorem lastVal_cons_self {r : String} (t : String) {ps : List (String × String)}
    (h : ps.any (fun p => p.1 = r) = false) :
    lastVal? ((r, t) :: ps) r = some t := by
  have hs := lastVal_isSome ps r
  rw [h] at hs
  simp only [lastVal?]
  cases hv : lastVal? ps r with
  | some v => rw [hv] at hs; cases hs
  | none => simp

/-! ## Lemmas about `updateHead` and `updateAll` -/

theorem updateAll_cons_some {l a : String} {ps : List (String × String)}
    {e : Json} {rest rest' : List Json} {e' : Json}
    (h1 : updateAll l a ps rest = some rest')
    (h2 : updateHead l a ps rest e = some e') :
    updateAll l a ps (e :: rest) = some (e' :: rest') := by
  unfold updateAll
  rw [h1, h2]

theorem updateAll_cons_elim {l a : String} {ps : List (String × String)}
    {e : Json} {rest : List Json} {u : List Json}
    (h : updateAll l a ps (e :: rest) = some u) :
    ∃ rest' e', updateAll l a ps rest = some rest' ∧
      updateHead l a ps rest e = some e' ∧ u = e' :: rest' := by
  unfold updateAll at h
  cases h1 : updateAll l a ps rest with
  | none => rw [h1] at h; cases h
  | some rest' =>
      cases h2 : updateHead l a ps rest e with
      | none => rw [h1, h2] at h; cases h
      | some e' =>
          rw [h1, h2] at h
          simp only [Option.some.injEq] at h
          exact ⟨rest', e', rfl, rfl, h.symm⟩

theorem updateHead_some_cases {l a : String} {ps : List (String × String)}
    {rest : List Json} {e e' : Json} (h : updateHead l a ps rest e = some e') :
    e' = e ∨ ∃ t, updEntry l a t e = some e' := by
  unfold updateHead at h
  cases hraw : rawOf e with
  | none => simp only [hraw] at h; cases h; exact Or.inl rfl
  | some r =>
      simp only [hraw] at h
      by_cases hc : ((ps.any (fun p => p.1 = r)) && !(memRaw rest r)) = true
      · rw [if_pos hc] at h
        exact Or.inr ⟨_, h⟩
      · rw [if_neg hc] at h
        cases h
        exact Or.inl rfl

theorem updateHead_rawOf {l a : String} {ps : List (String × String)}
    {rest : List Json} {e e' : Json} (h : updateHead l a ps rest e = some e') :
    rawOf e' = rawOf e := by
  rcases updateHead_some_cases h with rfl | ⟨t, hu⟩
  · rfl
  · exact updEntry_rawOf hu

theorem updateHead_congr {l a : String} {ps : List (String × String)}
    {rest₁ rest₂ : List Json} (e : Json)
    (h : ∀ x, memRaw rest₁ x = memRaw rest₂ x) :
    updateHead l a ps rest₁ e = updateHead l a ps rest₂ e := by
  unfold updateHead
  cases hraw : rawOf e with
  | none => rfl
  | some r => simp only [hraw]; rw [h r]

theorem updateAll_forall2 {l a : String} {ps : List (String × String)} :
    ∀ {s u : List Json}, updateAll l a ps s = some u →
      List.Forall₂ (fun e e' => e' = e ∨ ∃ t, updEntry l a t e = some e') s u := by
  intro s
  induction s with
  | nil => intro u h; cases h; exact List.Forall₂.nil
  | cons e rest ih =>
      intro u h
      obtain ⟨rest', e', h1, h2, rfl⟩ := updateAll_cons_elim h
      exact List.Forall₂.cons (updateHead_some_cases h2) (ih h1)

theorem updateAll_map_rawOf {l a : String} {ps : List (String × String)} :
    ∀ {s u : List Json}, updateAll l a ps s = some u →
      u.map rawOf = s.map rawOf := by
  intro s
  induction s with
  | nil => intro u h; cases h; rfl
  | cons e rest ih =>
      intro u h
      obtain ⟨rest', e', h1, h2, rfl⟩ := updateAll_cons_elim h
      simp only [List.map_cons]
      rw [ih h1, updateHead_rawOf h2]

theorem memRaw_eq_map (s : List Json) (x : String) :
    memRaw s x = (s.map rawOf).any (fun o => o = some x) := by
  induction s with
  | nil => rfl
  | cons e rest ih =>
      rw [memRaw_cons, ih]
      simp [List.any_cons, isRawEntry]

theorem updateAll_memRaw {l a : String} {ps : List (String × String)}
    {s u : List Json} (h : updateAll l a ps s = some u) (x : String) :
    memRaw u x = memRaw s x := by
  rw [memRaw_eq_map, memRaw_eq_map, updateAll_map_rawOf h]

theorem updateAll_length {l a : String} {ps : List (String × String)}
    {s u : List Json} (h : updateAll l a ps s = some u) : u.length = s.length := by
  have h2 := congrArg List.length (updateAll_map_rawOf h)
  simpa using h2

theorem isRawEntry_of_rawOf {e : Json} {r : String} (h : rawOf e = some r) :
    isRawEntry r e = true := by
  simp [isRawEntry, h]

theorem ne_of_not_isRawEntry {e : Json} {r r'' : String} (hraw : rawOf e = some r'')
    (he : isRawEntry r e = false) : r'' ≠ r := by
  intro hcon
  subst hcon
  rw [isRawEntry, hraw] at he
  simp at he

theorem updateHead_irrelevant {l a r t : String} {ps : List (String × String)}
    {rest : List Json} {e : Json} (he : isRawEntry r e = false) :
    updateHead l a ((r, t) :: ps) rest e = updateHead l a ps rest e := by
  unfold updateHead
  cases hraw : rawOf e with
  | none => rfl
  | some r'' =>
      simp only [hraw]
      have hne : r'' ≠ r := ne_of_not_isRawEntry hraw he
      rw [lastVal_cons_ne _ _ (Ne.symm hne)]
      simp only [List.any_cons]
      have hd : (decide (r = r'') : Bool) = false := by
        simp [Ne.symm hne]
      simp only [hd, Bool.false_or]

theorem updateAll_irrelevant {l a r t : String} {ps : List (String × String)} :
    ∀ {s : List Json}, memRaw s r = false →
      updateAll l a ((r, t) :: ps) s = updateAll l a ps s := by
  intro s
  induction s with
  | nil => intro _; rfl
  | cons e rest ih =>
      intro hm
      rw [memRaw_cons, Bool.or_eq_false_iff] at hm
      obtain ⟨he, hrest⟩ := hm
      unfold updateAll
      rw [ih hrest, updateHead_irrelevant he]

theorem updateAll_nil (l a : String) (ps : List (String × String)) :
    updateAll l a ps [] = some [] := rfl

theorem updateAll_cons_eq (l a : String) (ps : List (String × String))
    (e : Json) (rest : List Json) :
    updateAll l a ps (e :: rest) =
      match updateAll l a ps rest, updateHead l a ps rest e with
      | some rest', some e' => some (e' :: rest')
      | _, _ => none := rfl

theorem updateHead_append_single {l a : String} {ps : List (String × String)}
    {xs ys : List Json} {e : Json}
    (hys : ∀ r'', rawOf e = some r'' → memRaw ys r'' = false) :
    updateHead l a ps (xs ++ ys) e = updateHead l a ps xs e := by
  unfold updateHead
  cases hraw : rawOf e with
  | none => rfl
  | some r'' =>
      simp only [hraw]
      rw [memRaw_append, hys r'' hraw, Bool.or_false]

theorem updateAll_append {l a : String} {ps : List (String × String)} :
    ∀ {xs ys : List Json}, (∀ x, memRaw xs x = true → memRaw ys x = false) →
      updateAll l a ps (xs ++ ys) =
        match updateAll l a ps xs, updateAll l a ps ys with
        | some xs', some ys' => some (xs' ++ ys')
        | _, _ => none := by
  intro xs
  induction xs with
  | nil =>
      intro ys _
      simp only [List.nil_append, updateAll_nil]
      cases hys : updateAll l a ps ys <;> simp
  | cons e xs ih =>
      intro ys hdisj
      have hdisj' : ∀ x, memRaw xs x = true → memRaw ys x = false := by
        intro x hx
        exact hdisj x (by rw [memRaw_cons, hx, Bool.or_true])
      have hse : ∀ r'', rawOf e = some r'' → memRaw ys r'' = false := by
        intro r'' hraw
        exact hdisj r'' (by rw [memRaw_cons, isRawEntry_of_rawOf hraw, Bool.true_or])
      rw [List.cons_append]
      simp only [updateAll_cons_eq]
      rw [ih hdisj', updateHead_append_single hse]
      cases hxs : updateAll l a ps xs <;>
        cases hys : updateAll l a ps ys <;>
          cases hh : updateHead l a ps xs e <;> simp

theorem updateHead_isSome_of_ok {l a : String} {ps : List (String × String)}
    {rest : List Json} {e : Json} (hok : entryOk e = true) :
    (updateHead l a ps rest e).isSome = true := by
  unfold updateHead
  cases hraw : rawOf e with
  | none => simp
  | some r =>
      simp only [hraw]
      by_cases hc : ((ps.any (fun p => p.1 = r)) && !(memRaw rest r)) = true
      · rw [if_pos hc]
        exact updEntry_isSome hraw hok
      · rw [if_neg hc]
        simp

theorem updateAll_isSome_of_wf {l a : String} {ps : List (String × String)} :
    ∀ {s : List Json}, wfStore s = true → (updateAll l a ps s).isSome = true := by
  intro s
  induction s with
  | nil => intro _; rfl
  | cons e rest ih =>
      intro hw
      rw [wfStore, List.all_cons, Bool.and_eq_true] at hw
      obtain ⟨hok, hrest⟩ := hw
      have h1 := ih hrest
      have h2 := @updateHead_isSome_of_ok l a ps rest e hok
      unfold updateAll
      cases hx : updateAll l a ps rest with
      | none => rw [hx] at h1; cases h1
      | some rest' =>
          cases hy : updateHead l a ps rest e with
          | none => rw [hy] at h2; cases h2
          | some e' => simp

theorem updateHead_idem {l a : String} {ps : List (String × String)}
    {rest : List Json} {e e' : Json} (h : updateHead l a ps rest e = some e') :
    updateHead l a ps rest e' = some e' := by
  unfold updateHead at h ⊢
  cases hraw : rawOf e with
  | none => simp only [hraw] at h; cases h; simp only [hraw]
  | some r =>
      simp only [hraw] at h
      by_cases hc : ((ps.any (fun p => p.1 = r)) && !(memRaw rest r)) = true
      · rw [if_pos hc] at h
        have hre : rawOf e' = some r := by rw [updEntry_rawOf h, hraw]
        simp only [hre, if_pos hc]
        rw [updEntry_abs h]
        exact h
      · rw [if_neg hc] at h
        cases h
        simp only [hraw, if_neg hc]

theorem updateAll_idem {l a : String} {ps : List (String × String)} :
    ∀ {s u : List Json}, updateAll l a ps s = some u →
      updateAll l a ps u = some u := by
  intro s
  induction s with
  | nil => intro u h; cases h; rfl
  | cons e rest ih =>
      intro u h
      obtain ⟨rest', e', h1, h2, rfl⟩ := updateAll_cons_elim h
      have hcong := @updateHead_congr l a ps rest' rest e'
        (fun x => updateAll_memRaw h1 x)
      exact updateAll_cons_some (ih h1) (hcong.trans (updateHead_idem h2))

theorem updateLast_cons_eq (l a r t : String) (e : Json) (rest : List Json) :
    updateLast l a r t (e :: rest) =
      if memRaw rest r then (updateLast l a r t rest).map (e :: ·)
      else if isRawEntry r e then (updEntry l a t e).map (· :: rest)
      else none := rfl

theorem updEntry_isSome_indep (l a t v : String) (e : Json) :
    (updEntry l a t e).isSome = (updEntry l a v e).isSome := by
  cases e <;> try rfl
  rename_i fs
  have hiso := (updateEntryFields_isSome l a t fs).trans
    (updateEntryFields_isSome l a v fs).symm
  simp only [updEntry]
  cases h1 : updateEntryFields l a t fs <;> cases h2 : updateEntryFields l a v fs <;>
    rw [h1, h2] at hiso <;> simp_all

theorem updateHead_cons_of_memRaw {l a r t : String} {ps : List (String × String)}
    {rest : List Json} (e : Json) (hm : memRaw rest r = true) :
    updateHead l a ((r, t) :: ps) rest e = updateHead l a ps rest e := by
  by_cases he : isRawEntry r e = true
  · have hraw : rawOf e = some r := by simpa [isRawEntry] using he
    unfold updateHead
    simp [hraw, hm]
  · exact updateHead_irrelevant (by simpa using he)

/-- Fusing one `updateLast` step into the positionwise pass: updating a known
raw string and then running the pass for the remaining pairs is the pass for
the extended pair list. -/
theorem updateLast_fuse {l a r t : String} {ps : List (String × String)} :
    ∀ {s : List Json}, memRaw s r = true →
      (updateLast l a r t s).bind (updateAll l a ps) =
        updateAll l a ((r, t) :: ps) s := by
  intro s
  induction s with
  | nil => intro hm; simp [memRaw] at hm
  | cons e rest ih =>
      intro hm
      by_cases hrest : memRaw rest r = true
      · rw [updateLast_cons_eq, if_pos hrest, updateAll_cons_eq,
          updateHead_cons_of_memRaw e hrest, ← ih hrest]
        cases hu : updateLast l a r t rest with
        | none => simp
        | some rest₁ =>
            simp only [Option.map_some', Option.some_bind]
            rw [updateAll_cons_eq,
              updateHead_congr e (fun x => updateLast_memRaw hu x)]
      · have hrest' : memRaw rest r = false := by simpa using hrest
        have he : isRawEntry r e = true := by
          rw [memRaw_cons, hrest', Bool.or_false] at hm
          exact hm
        have hraw : rawOf e = some r := by simpa [isRawEntry] using he
        rw [updateLast_cons_eq, if_neg hrest, if_pos he, updateAll_cons_eq,
          updateAll_irrelevant hrest']
        have hcond : ((((r, t) :: ps).any fun p => decide (p.1 = r)) &&
            !memRaw rest r) = true := by
          simp [List.any_cons, hrest']
        have hhead : updateHead l a ((r, t) :: ps) rest e =
            updEntry l a ((lastVal? ((r, t) :: ps) r).getD "") e := by
          unfold updateHead
          simp only [hraw]
          rw [if_pos hcond]
        rw [hhead]
        cases hu : updEntry l a t e with
        | none =>
            have hnone : updEntry l a ((lastVal? ((r, t) :: ps) r).getD "") e = none := by
              have hi := updEntry_isSome_indep l a t
                ((lastVal? ((r, t) :: ps) r).getD "") e
              rw [hu] at hi
              cases h2 : updEntry l a ((lastVal? ((r, t) :: ps) r).getD "") e with
              | none => rfl
              | some x => rw [h2] at hi; cases hi
            rw [hnone]
            simp
        | some e' =>
            simp only [Option.map_some', Option.some_bind]
            rw [updateAll_cons_eq]
            have hre : rawOf e' = some r := by rw [updEntry_rawOf hu, hraw]
            by_cases hany : (ps.any fun p => decide (p.1 = r)) = true
            · rw [@lastVal_cons_of_any r r t ps hany]
              rw [(updEntry_abs hu ((lastVal? ps r).getD "")).symm]
              have hcond2 : ((ps.any fun p => decide (p.1 = r)) &&
                  !memRaw rest r) = true := by
                simp [hany, hrest']
              have hh2 : updateHead l a ps rest e' =
                  updEntry l a ((lastVal? ps r).getD "") e' := by
                unfold updateHead
                simp only [hre]
                rw [if_pos hcond2]
              rw [hh2]
            · have hany' : (ps.any fun p => decide (p.1 = r)) = false := by
                rwa [Bool.not_eq_true] at hany
              rw [lastVal_cons_self t hany']
              simp only [Option.getD_some]
              rw [hu]
              have hh2 : updateHead l a ps rest e' = some e' := by
                unfold updateHead
                simp only [hre]
                rw [if_neg (by simp [hany'])]
              rw [hh2]

/-! ## Lemmas about `dedupF` and `newEntries` -/

theorem mem_dedupF {x : String} : ∀ {l : List String}, x ∈ dedupF l ↔ x ∈ l := by
  intro l
  induction l with
  | nil => simp [dedupF]
  | cons y ys ih =>
      simp only [dedupF, List.mem_cons, List.mem_filter, ih, ne_eq, decide_not]
      constructor
      · rintro (rfl | ⟨hmem, _⟩)
        · exact Or.inl rfl
        · exact Or.inr hmem
      · rintro (rfl | hmem)
        · exact Or.inl rfl
        · by_cases hxy : x = y
          · exact Or.inl hxy
          · exact Or.inr ⟨hmem, by simp [hxy]⟩

theorem dedupF_nodup : ∀ (l : List String), (dedupF l).Nodup := by
  intro l
  induction l with
  | nil => simp [dedupF]
  | cons y ys ih =>
      simp only [dedupF, List.nodup_cons]
      refine ⟨fun hmem => ?_, List.Nodup.filter _ ih⟩
      have := (List.mem_filter.mp hmem).2
      simp at this

theorem newEntries_congr {l a : String} {ps : List (String × String)}
    {s₁ s₂ : List Json} (h : ∀ x, memRaw s₁ x = memRaw s₂ x) :
    newEntries l a ps s₁ = newEntries l a ps s₂ := by
  unfold newEntries newRaws
  have hc : ∀ x ∈ dedupF (ps.map (fun p => p.1)),
      (!memRaw s₁ x) = (!memRaw s₂ x) := by
    intro x _
    rw [h x]
  rw [List.filter_congr hc]

theorem filter_ne_absorb {s : List Json} {r : String} (hm : memRaw s r = true) :
    ∀ (l : List String),
      ((l.filter (fun y => y ≠ r)).filter (fun x => !memRaw s x)) =
        l.filter (fun x => !memRaw s x) := by
  intro l
  induction l with
  | nil => rfl
  | cons y ys ih =>
      by_cases hyr : y = r
      · subst hyr
        rw [List.filter_cons_of_neg (by simp), List.filter_cons_of_neg (by simp [hm])]
        exact ih
      · rw [List.filter_cons_of_pos (by simp [hyr])]
        by_cases hmem : memRaw s y = true
        · rw [List.filter_cons_of_neg (by simp [hmem]),
            List.filter_cons_of_neg (by simp [hmem])]
          exact ih
        · have hmf : memRaw s y = false := by rwa [Bool.not_eq_true] at hmem
          rw [List.filter_cons_of_pos (by simp [hmf]),
            List.filter_cons_of_pos (by simp [hmf]), ih]

theorem memRaw_single_mkNew (l a r t x : String) :
    memRaw [mkNewEntry l a r t] x = decide (r = x) := by
  simp [memRaw, isRawEntry, rawOf_mkNewEntry]

theorem filter_memRaw_append_new {s : List Json} {l' a' r t' : String}
    (hm : memRaw s r = false) :
    ∀ (l : List String),
      l.filter (fun x => !memRaw (s ++ [mkNewEntry l' a' r t']) x) =
        (l.filter (fun y => y ≠ r)).filter (fun x => !memRaw s x) := by
  intro l
  induction l with
  | nil => rfl
  | cons y ys ih =>
      by_cases hyr : y = r
      · subst hyr
        rw [List.filter_cons_of_neg
            (by simp [memRaw_append, memRaw_single_mkNew]),
          List.filter_cons_of_neg (by simp)]
        exact ih
      · rw [List.filter_cons_of_pos (p := fun y => decide ¬(y = r)) (by simp [hyr])]
        by_cases hmem : memRaw s y = true
        · rw [List.filter_cons_of_neg
              (by simp [memRaw_append, memRaw_single_mkNew, hmem]),
            List.filter_cons_of_neg (by simp [hmem])]
          exact ih
        · have hmf : memRaw s y = false := by rwa [Bool.not_eq_true] at hmem
          rw [List.filter_cons_of_pos
              (by simp [memRaw_append, memRaw_single_mkNew, hmf, Ne.symm hyr]),
            List.filter_cons_of_pos (by simp [hmf]), ih]

theorem newEntries_cons_of_memRaw {l a r t : String} {ps : List (String × String)}
    {s : List Json} (hm : memRaw s r = true) :
    newEntries l a ((r, t) :: ps) s = newEntries l a ps s := by
  unfold newEntries newRaws
  simp only [List.map_cons, dedupF]
  rw [List.filter_cons_of_neg (by simp [hm]), filter_ne_absorb hm]
  apply List.map_congr_left
  intro x hx
  rw [List.mem_filter] at hx
  have hxr : x ≠ r := by
    intro hcon
    subst hcon
    rw [hm] at hx
    simp at hx
  rw [lastVal_cons_ne _ _ (Ne.symm hxr)]

theorem updateAll_single_new (l a r t : String) (ps : List (String × String)) :
    updateAll l a ps [mkNewEntry l a r t] =
      some [mkNewEntry l a r ((lastVal? ((r, t) :: ps) r).getD "")] := by
  rw [updateAll_cons_eq, updateAll_nil]
  unfold updateHead
  simp only [rawOf_mkNewEntry]
  by_cases hany : (ps.any fun p => decide (p.1 = r)) = true
  · rw [if_pos (by simp [hany, memRaw]), updEntry_mkNewEntry,
      lastVal_cons_of_any t hany]
  · have hany' : (ps.any fun p => decide (p.1 = r)) = false := by
      rwa [Bool.not_eq_true] at hany
    rw [if_neg (by simp [hany', memRaw]), lastVal_cons_self t hany']
    rfl

theorem newEntries_cons_new {l a r t : String} {ps : List (String × String)}
    {s : List Json} (hm : memRaw s r = false) :
    newEntries l a ((r, t) :: ps) s =
      mkNewEntry l a r ((lastVal? ((r, t) :: ps) r).getD "") ::
        newEntries l a ps (s ++ [mkNewEntry l a r t]) := by
  unfold newEntries newRaws
  simp only [List.map_cons, dedupF]
  rw [List.filter_cons_of_pos (by simp [hm]), List.map_cons]
  congr 1
  rw [@filter_memRaw_append_new s l a r t hm]
  apply List.map_congr_left
  intro x hx
  rw [List.mem_filter] at hx
  have hx1 := (List.mem_filter.mp hx.1).2
  have hxr : x ≠ r := by simpa using hx1
  rw [lastVal_cons_ne _ _ (Ne.symm hxr)]

/-! ## The merge-loop characterization -/

theorem updateHead_nil_ps (l a : String) (rest : List Json) (e : Json) :
    updateHead l a [] rest e = some e := by
  unfold updateHead
  cases hraw : rawOf e with
  | none => rfl
  | some r => simp [hraw]

theorem updateAll_nil_ps (l a : String) : ∀ (s : List Json),
    updateAll l a [] s = some s := by
  intro s
  induction s with
  | nil => rfl
  | cons e rest ih => rw [updateAll_cons_eq, ih, updateHead_nil_ps]

theorem mergeLoop_cons_eq (l a r t : String) (ps : List (String × String))
    (s : List Json) :
    mergeLoop l a ((r, t) :: ps) s =
      match mergeOne l a s r t with
      | some s' => mergeLoop l a ps s'
      | none => none := rfl

/-- The merge loop equals the positionwise update pass followed by appending
the new records. -/
theorem mergeLoop_eq {l a : String} : ∀ (ps : List (String × String))
    (s : List Json),
    mergeLoop l a ps s =
      (updateAll l a ps s).map (fun u => u ++ newEntries l a ps s) := by
  intro ps
  induction ps with
  | nil =>
      intro s
      show some s = _
      rw [updateAll_nil_ps]
      simp [newEntries, newRaws, dedupF]
  | cons p ps ih =>
      obtain ⟨r, t⟩ := p
      intro s
      rw [mergeLoop_cons_eq]
      unfold mergeOne
      by_cases hm : memRaw s r = true
      · rw [if_pos hm]
        have hfuse := @updateLast_fuse l a r t ps s hm
        rw [← hfuse, newEntries_cons_of_memRaw hm]
        cases hu : updateLast l a r t s with
        | none => simp
        | some s₁ =>
            simp only [hu, Option.some_bind]
            rw [ih s₁,
              @newEntries_congr l a ps s₁ s (fun x => updateLast_memRaw hu x)]
      · have hm' : memRaw s r = false := by rwa [Bool.not_eq_true] at hm
        rw [if_neg hm]
        show mergeLoop l a ps (s ++ [mkNewEntry l a r t]) = _
        rw [ih (s ++ [mkNewEntry l a r t])]
        have hdisj : ∀ x, memRaw s x = true →
            memRaw [mkNewEntry l a r t] x = false := by
          intro x hx
          rw [memRaw_single_mkNew]
          by_cases hxr : r = x
          · subst hxr
            rw [hx] at hm'
            cases hm'
          · simp [hxr]
        rw [updateAll_append hdisj, updateAll_single_new,
          updateAll_irrelevant hm', newEntries_cons_new hm']
        cases hus : updateAll l a ps s <;> simp

/-! ## Consequences of the characterization -/

theorem padZip_map_fst : ∀ (raws trans : List String),
    (padZip raws trans).map (fun p => p.1) = raws := by
  intro raws
  induction raws with
  | nil => intro trans; rfl
  | cons r rs ih =>
      intro trans
      cases trans with
      | nil => simp [padZip, ih]
      | cons t ts => simp [padZip, ih]

theorem merge_some_elim {l a : String} {raws trans : List String}
    {store s' : List Json}
    (h : merge_translations l a raws trans store = some s') :
    hashableRaws store = true ∧
      ∃ uA, updateAll l a (padZip raws trans) store = some uA ∧
        s' = uA ++ newEntries l a (padZip raws trans) store := by
  unfold merge_translations at h
  by_cases hh : hashableRaws store = true
  · rw [if_pos hh, mergeLoop_eq] at h
    refine ⟨hh, ?_⟩
    cases hu : updateAll l a (padZip raws trans) store with
    | none => rw [hu] at h; cases h
    | some uA =>
        rw [hu] at h
        simp only [Option.map_some', Option.some.injEq] at h
        exact ⟨uA, rfl, h.symm⟩
  · rw [if_neg hh] at h
    cases h

theorem hashableRaws_append (xs ys : List Json) :
    hashableRaws (xs ++ ys) = (hashableRaws xs && hashableRaws ys) := by
  simp [hashableRaws, List.all_append]

theorem updateAll_hashable {l a : String} {ps : List (String × String)} :
    ∀ {s u : List Json}, updateAll l a ps s = some u →
      hashableRaws s = true → hashableRaws u = true := by
  intro s
  induction s with
  | nil => intro u h _; cases h; rfl
  | cons e rest ih =>
      intro u h hs
      obtain ⟨rest', e', h1, h2, rfl⟩ := updateAll_cons_elim h
      rw [hashableRaws, List.all_cons, Bool.and_eq_true] at hs ⊢
      refine ⟨?_, ih h1 hs.2⟩
      rcases updateHead_some_cases h2 with rfl | ⟨t, hu⟩
      · exact hs.1
      · rw [updEntry_rawHashable hu]
        exact hs.1

theorem memRaw_map_mkNew (l a : String) (f : String → String) (x : String) :
    ∀ (rs : List String),
      memRaw (rs.map (fun r => mkNewEntry l a r (f r))) x = decide (x ∈ rs) := by
  intro rs
  induction rs with
  | nil => rfl
  | cons r rs ih =>
      rw [List.map_cons, memRaw_cons, ih]
      simp only [isRawEntry, rawOf_mkNewEntry, List.mem_cons]
      by_cases hx : r = x <;> simp [hx, eq_comm]

theorem hashableRaws_map_mkNew (l a : String) (f : String → String)
    (rs : List String) :
    hashableRaws (rs.map (fun r => mkNewEntry l a r (f r))) = true := by
  induction rs with
  | nil => rfl
  | cons r rs ih =>
      rw [List.map_cons, hashableRaws, List.all_cons]
      rw [hashableRaws] at ih
      simp [ih, rawHashable_mkNewEntry]

theorem any_fst_iff (ps : List (String × String)) (r : String) :
    (ps.any fun p => decide (p.1 = r)) = true ↔ r ∈ ps.map (fun p => p.1) := by
  simp [List.any_eq_true, List.mem_map]

theorem newRaws_nodup (ps : List (String × String)) (s : List Json) :
    (newRaws ps s).Nodup :=
  List.Nodup.filter _ (dedupF_nodup _)

theorem newRaws_mem {ps : List (String × String)} {s : List Json} {r : String}
    (h : r ∈ newRaws ps s) :
    r ∈ ps.map (fun p => p.1) ∧ memRaw s r = false := by
  rw [newRaws, List.mem_filter] at h
  refine ⟨mem_dedupF.mp h.1, ?_⟩
  have := h.2
  simp only [Bool.not_eq_true'] at this
  exact this

theorem mem_newRaws {ps : List (String × String)} {s : List Json} {r : String}
    (h1 : r ∈ ps.map (fun p => p.1)) (h2 : memRaw s r = false) :
    r ∈ newRaws ps s := by
  rw [newRaws, List.mem_filter]
  exact ⟨mem_dedupF.mpr h1, by simp [h2]⟩

theorem updateAll_map_mkNew_id (l a : String) (ps : List (String × String)) :
    ∀ (rs : List String), rs.Nodup →
      (∀ r ∈ rs, (ps.any fun p => decide (p.1 = r)) = true) →
      updateAll l a ps (rs.map (fun r => mkNewEntry l a r ((lastVal? ps r).getD ""))) =
        some (rs.map (fun r => mkNewEntry l a r ((lastVal? ps r).getD ""))) := by
  intro rs
  induction rs with
  | nil => intro _ _; rfl
  | cons r rs ih =>
      intro hnd hany
      rw [List.nodup_cons] at hnd
      rw [List.map_cons, updateAll_cons_eq,
        ih hnd.2 (fun x hx => hany x (List.mem_cons_of_mem r hx))]
      have hhead : updateHead l a ps
          (rs.map (fun r => mkNewEntry l a r ((lastVal? ps r).getD "")))
          (mkNewEntry l a r ((lastVal? ps r).getD "")) =
          some (mkNewEntry l a r ((lastVal? ps r).getD "")) := by
        unfold updateHead
        simp only [rawOf_mkNewEntry]
        rw [memRaw_map_mkNew, if_pos
          (by simp [hany r (List.mem_cons_self r rs), hnd.1]),
          updEntry_mkNewEntry]
      rw [hhead]

theorem memRaw_newEntries (l a : String) (ps : List (String × String))
    (s : List Json) (x : String) :
    memRaw (newEntries l a ps s) x = decide (x ∈ newRaws ps s) := by
  rw [newEntries, memRaw_map_mkNew]

/-! ## Claim C1 -/

/-- **C1**: merge is idempotent — for every raw array, translation array,
target store, locale and author, a second `merge_translations` run with
identical inputs maps the once-merged store to itself; moreover the merged
store preserves the order (and raw strings) of entries already present and
appends the new raw strings at the end in raw-array (first-occurrence) order. -/
theorem C1_merge_idempotent (l a : String) (raws trans : List String)
    (store s' : List Json)
    (h : merge_translations l a raws trans store = some s') :
    merge_translations l a raws trans s' = some s' ∧
      s'.map rawOf = store.map rawOf ++
        ((dedupF raws).filter (fun r => !(memRaw store r))).map
          (fun r => some r) := by
  obtain ⟨hh, uA, huA, rfl⟩ := merge_some_elim h
  have hhs' : hashableRaws
      (uA ++ newEntries l a (padZip raws trans) store) = true := by
    rw [hashableRaws_append, Bool.and_eq_true]
    exact ⟨updateAll_hashable huA hh,
      by rw [newEntries]; exact hashableRaws_map_mkNew l a _ _⟩
  have hmem : ∀ r ∈ (padZip raws trans).map (fun p => p.1),
      memRaw (uA ++ newEntries l a (padZip raws trans) store) r = true := by
    intro r hr
    rw [memRaw_append]
    by_cases hms : memRaw store r = true
    · simp [updateAll_memRaw huA r, hms]
    · have hms' : memRaw store r = false := by rwa [Bool.not_eq_true] at hms
      have hn : r ∈ newRaws (padZip raws trans) store := mem_newRaws hr hms'
      rw [memRaw_newEntries]
      simp [hn]
  have hnr : newRaws (padZip raws trans)
      (uA ++ newEntries l a (padZip raws trans) store) = [] := by
    rw [newRaws]
    rw [List.filter_eq_nil_iff]
    intro r hr
    rw [hmem r (mem_dedupF.mp hr)]
    simp
  have hdisj : ∀ x, memRaw uA x = true →
      memRaw (newEntries l a (padZip raws trans) store) x = false := by
    intro x hx
    rw [updateAll_memRaw huA x] at hx
    rw [memRaw_newEntries]
    by_cases hxn : x ∈ newRaws (padZip raws trans) store
    · have hf := (newRaws_mem hxn).2
      rw [hx] at hf
      cases hf
    · simp [hxn]
  have hupd : updateAll l a (padZip raws trans)
      (uA ++ newEntries l a (padZip raws trans) store) =
      some (uA ++ newEntries l a (padZip raws trans) store) := by
    rw [updateAll_append hdisj, updateAll_idem huA]
    have hne : updateAll l a (padZip raws trans)
        (newEntries l a (padZip raws trans) store) =
        some (newEntries l a (padZip raws trans) store) := by
      rw [newEntries]
      exact updateAll_map_mkNew_id l a _ _ (newRaws_nodup _ _)
        (fun r hr => (any_fst_iff _ r).mpr (newRaws_mem hr).1)
    rw [hne]
  constructor
  · unfold merge_translations
    rw [if_pos hhs', mergeLoop_eq, hupd]
    have hce : newEntries l a (padZip raws trans)
        (uA ++ newEntries l a (padZip raws trans) store) = [] := by
      rw [newEntries, hnr]
      rfl
    rw [hce]
    simp
  · rw [List.map_append, updateAll_map_rawOf huA]
    congr 1
    rw [newEntries, List.map_map]
    have : newRaws (padZip raws trans) store =
        (dedupF raws).filter (fun r => !(memRaw store r)) := by
      rw [newRaws, padZip_map_fst]
    rw [← this]
    apply List.map_congr_left
    intro r _
    simp [Function.comp, rawOf_mkNewEntry]

/-- Concrete witness for C1: a successful merge into an empty store. -/
theorem C1_merge_idempotent_witness :
    merge_translations "zh-CN" "alice" ["あ", "い"] ["x", "y"] [] =
      some [mkNewEntry "zh-CN" "alice" "あ" "x",
        mkNewEntry "zh-CN" "alice" "い" "y"] ∧
      merge_translations "zh-CN" "alice" ["あ", "い"] ["x", "y"]
        [mkNewEntry "zh-CN" "alice" "あ" "x", mkNewEntry "zh-CN" "alice" "い" "y"] =
      some [mkNewEntry "zh-CN" "alice" "あ" "x",
        mkNewEntry "zh-CN" "alice" "い" "y"] := by
  constructor
  · decide
  · have h := C1_merge_idempotent "zh-CN" "alice" ["あ", "い"] ["x", "y"] []
      [mkNewEntry "zh-CN" "alice" "あ" "x", mkNewEntry "zh-CN" "alice" "い" "y"]
      (by decide)
    exact h.1

/-! ## Claim C2 -/

/-- **C2**: merge preserves foreign-locale entries — after a merge for locale
`l`, every pre-existing store position keeps its `translation[l']` value for
every other locale `l'` unchanged (and its raw string unchanged); only the
`l` entry of a record's translation mapping is set or overwritten. -/
theorem C2_merge_preserves_foreign_locales (l a : String)
    (raws trans : List String) (store s' : List Json)
    (h : merge_translations l a raws trans store = some s')
    (i : Nat) (hi : i < store.length) (l' : String) (hl' : l' ≠ l) :
    localeEntryOf (s'.getD i .null) l' = localeEntryOf (store.getD i .null) l' ∧
      rawOf (s'.getD i .null) = rawOf (store.getD i .null) := by
  obtain ⟨hh, uA, huA, rfl⟩ := merge_some_elim h
  have hf2 := updateAll_forall2 huA
  have hlen : uA.length = store.length := updateAll_length huA
  have hget : (uA ++ newEntries l a (padZip raws trans) store).getD i .null =
      uA.getD i .null := by
    rw [List.getD_append]
    omega
  rw [hget]
  have hrel : ∀ (j : Nat), j < store.length →
      (uA.getD j .null = store.getD j .null ∨
        ∃ t, updEntry l a t (store.getD j .null) = some (uA.getD j .null)) := by
    intro j hj
    have hj2 : j < uA.length := by omega
    rw [List.getD_eq_getElem store .null hj, List.getD_eq_getElem uA .null hj2]
    rcases List.forall₂_iff_get.mp hf2 with ⟨_, hg⟩
    rcases hg j hj hj2 with he | ⟨t, ht⟩
    · exact Or.inl he
    · exact Or.inr ⟨t, ht⟩
  rcases hrel i hi with he | ⟨t, ht⟩
  · rw [he]
    exact ⟨rfl, rfl⟩
  · exact ⟨updEntry_locale_frame ht hl', updEntry_rawOf ht⟩

/-- Concrete witness for C2: an `"en"` entry survives a `"zh-CN"` merge. -/
theorem C2_merge_preserves_foreign_locales_witness :
    localeEntryOf
        (([Json.obj (.cons "raw" (.str "あ")
            (.cons "translation" (.obj (.cons "en" (mkTransEntry "hello" "bob")
              (.cons "zh-CN" (mkTransEntry "x" "alice") .nil))) .nil))] :
          List Json).getD 0 .null) "en" =
      localeEntryOf
        (([mkNewEntry "en" "bob" "あ" "hello"] : List Json).getD 0 .null) "en" ∧
      rawOf
        (([Json.obj (.cons "raw" (.str "あ")
            (.cons "translation" (.obj (.cons "en" (mkTransEntry "hello" "bob")
              (.cons "zh-CN" (mkTransEntry "x" "alice") .nil))) .nil))] :
          List Json).getD 0 .null) =
      rawOf (([mkNewEntry "en" "bob" "あ" "hello"] : List Json).getD 0 .null) :=
  C2_merge_preserves_foreign_locales "zh-CN" "alice" ["あ"] ["x"]
    [mkNewEntry "en" "bob" "あ" "hello"]
    [Json.obj (.cons "raw" (.str "あ")
      (.cons "translation" (.obj (.cons "en" (mkTransEntry "hello" "bob")
        (.cons "zh-CN" (mkTransEntry "x" "alice") .nil))) .nil))]
    (by decide) 0 (by decide) "en" (by decide)

/-! ## Claim C3: length mismatch -/

theorem rawHashable_of_entryOk {e : Json} (h : entryOk e = true) :
    rawHashable e = true := by
  cases e <;> try rfl
  rename_i fs
  simp only [entryOk] at h
  simp only [rawHashable]
  cases hl : lookupKey fs "raw" with
  | none => rfl
  | some v => rw [hl] at h; cases v <;> simp_all

theorem hashableRaws_of_wf {s : List Json} (h : wfStore s = true) :
    hashableRaws s = true := by
  rw [wfStore, List.all_eq_true] at h
  rw [hashableRaws, List.all_eq_true]
  exact fun e he => rawHashable_of_entryOk (h e he)

theorem merge_isSome_of_wf {l a : String} {raws trans : List String}
    {store : List Json} (hw : wfStore store = true) :
    (merge_translations l a raws trans store).isSome = true := by
  unfold merge_translations
  rw [if_pos (hashableRaws_of_wf hw), mergeLoop_eq]
  have := @updateAll_isSome_of_wf l a (padZip raws trans) store hw
  cases hu : updateAll l a (padZip raws trans) store with
  | none => rw [hu] at this; cases this
  | some uA => simp

theorem lastRawEntry_none_iff : ∀ (s : List Json) (r : String),
    lastRawEntry s r = none ↔ memRaw s r = false := by
  intro s r
  induction s with
  | nil => simp [lastRawEntry, memRaw]
  | cons e rest ih =>
      simp only [lastRawEntry, memRaw_cons]
      cases hl : lastRawEntry rest r with
      | some e' =>
          rw [hl] at ih
          simp only [Bool.or_eq_false_iff]
          constructor
          · intro hcon; cases hcon
          · rintro ⟨_, hcon⟩
            rw [← ih] at hcon
            cases hcon
      | none =>
          rw [hl] at ih
          simp only [Bool.or_eq_false_iff]
          by_cases he : isRawEntry r e = true <;> simp [he, ih.mp rfl]

theorem lastRawEntry_cons_eq (e : Json) (rest : List Json) (r : String) :
    lastRawEntry (e :: rest) r =
      match lastRawEntry rest r with
      | some e' => some e'
      | none => if isRawEntry r e then some e else none := rfl

theorem lastRawEntry_append : ∀ (xs ys : List Json) (r : String),
    lastRawEntry (xs ++ ys) r =
      match lastRawEntry ys r with
      | some e => some e
      | none => lastRawEntry xs r := by
  intro xs ys r
  induction xs with
  | nil =>
      simp only [List.nil_append]
      cases lastRawEntry ys r <;> simp [lastRawEntry]
  | cons x xs ih =>
      rw [List.cons_append, lastRawEntry_cons_eq, lastRawEntry_cons_eq, ih]
      cases lastRawEntry ys r <;> cases lastRawEntry xs r <;> simp

theorem lastRawEntry_map_mkNew (l a : String) (f : String → String) :
    ∀ (rs : List String) (r : String), rs.Nodup → r ∈ rs →
      lastRawEntry (rs.map (fun x => mkNewEntry l a x (f x))) r =
        some (mkNewEntry l a r (f r)) := by
  intro rs
  induction rs with
  | nil => intro r _ hr; cases hr
  | cons x xs ih =>
      intro r hnd hr
      rw [List.nodup_cons] at hnd
      rw [List.map_cons]
      simp only [lastRawEntry]
      by_cases hmem : r ∈ xs
      · rw [ih r hnd.2 hmem]
      · have hx : x = r := by
          rcases List.mem_cons.mp hr with h | h
          · exact h.symm
          · exact absurd h hmem
        subst hx
        have hnone : lastRawEntry (xs.map (fun x => mkNewEntry l a x (f x))) x =
            none := by
          rw [lastRawEntry_none_iff, memRaw_map_mkNew]
          simp [hmem]
        rw [hnone, if_pos (isRawEntry_of_rawOf (rawOf_mkNewEntry l a x (f x)))]

theorem updateAll_lastRawEntry {l a r : String} {ps : List (String × String)}
    (hany : (ps.any fun p => decide (p.1 = r)) = true) :
    ∀ {s u : List Json}, updateAll l a ps s = some u → memRaw s r = true →
      ∃ e, lastRawEntry u r = some e ∧
        localeEntryOf e l = some (mkTransEntry ((lastVal? ps r).getD "") a) := by
  intro s
  induction s with
  | nil => intro u h hm; simp [memRaw] at hm
  | cons e rest ih =>
      intro u h hm
      obtain ⟨rest', e', h1, h2, rfl⟩ := updateAll_cons_elim h
      by_cases hrest : memRaw rest r = true
      · obtain ⟨e₀, he₀, hloc⟩ := ih h1 hrest
        refine ⟨e₀, ?_, hloc⟩
        simp only [lastRawEntry, he₀]
      · have hrest' : memRaw rest r = false := by rwa [Bool.not_eq_true] at hrest
        have he : isRawEntry r e = true := by
          rw [memRaw_cons, hrest', Bool.or_false] at hm
          exact hm
        have hraw : rawOf e = some r := by simpa [isRawEntry] using he
        have hnone : lastRawEntry rest' r = none := by
          rw [lastRawEntry_none_iff, updateAll_memRaw h1, hrest']
        have he' : isRawEntry r e' = true := by
          rw [isRawEntry, updateHead_rawOf h2, ← isRawEntry]
          exact he
        refine ⟨e', ?_, ?_⟩
        · simp only [lastRawEntry, hnone, if_pos he']
        · unfold updateHead at h2
          simp only [hraw] at h2
          rw [if_pos (by simp [hany, hrest'])] at h2
          exact updEntry_locale h2

/-- The final translation value a raw string receives from a merge: the
translation paired with its last occurrence. -/
theorem merge_final_value {l a : String} {raws trans : List String}
    {store s' : List Json} (h : merge_translations l a raws trans store = some s')
    {r : String} (hr : r ∈ raws) :
    ∃ e, lastRawEntry s' r = some e ∧
      localeEntryOf e l =
        some (mkTransEntry ((lastVal? (padZip raws trans) r).getD "") a) := by
  obtain ⟨hh, uA, huA, rfl⟩ := merge_some_elim h
  have hfst : r ∈ (padZip raws trans).map (fun p => p.1) := by
    rw [padZip_map_fst]; exact hr
  by_cases hms : memRaw store r = true
  · have hnewnone : lastRawEntry
        (newEntries l a (padZip raws trans) store) r = none := by
      rw [lastRawEntry_none_iff, memRaw_newEntries]
      by_cases hn : r ∈ newRaws (padZip raws trans) store
      · have := (newRaws_mem hn).2
        rw [hms] at this
        cases this
      · simp [hn]
    obtain ⟨e, he, hloc⟩ := updateAll_lastRawEntry
      ((any_fst_iff _ r).mpr hfst) huA hms
    refine ⟨e, ?_, hloc⟩
    rw [lastRawEntry_append, hnewnone, he]
  · have hms' : memRaw store r = false := by rwa [Bool.not_eq_true] at hms
    have hn : r ∈ newRaws (padZip raws trans) store := mem_newRaws hfst hms'
    refine ⟨mkNewEntry l a r ((lastVal? (padZip raws trans) r).getD ""), ?_, ?_⟩
    · rw [lastRawEntry_append, newEntries,
        lastRawEntry_map_mkNew l a _ _ _ (newRaws_nodup _ _) hn]
    · exact localeEntryOf_mkNewEntry l a r _

theorem padZip_nil_all_empty : ∀ (raws : List String),
    ∀ p ∈ padZip raws [], p.2 = "" := by
  intro raws
  induction raws with
  | nil => intro p hp; cases hp
  | cons x xs ih =>
      intro p hp
      rcases List.mem_cons.mp hp with rfl | hp
      · rfl
      · exact ih p hp

theorem lastVal_all_empty {r : String} : ∀ {ps : List (String × String)},
    (∀ p ∈ ps, p.2 = "") → r ∈ ps.map (fun p => p.1) →
      lastVal? ps r = some "" := by
  intro ps
  induction ps with
  | nil => intro _ hr; cases hr
  | cons p ps ih =>
      obtain ⟨x, t⟩ := p
      intro hall hr
      have ht : t = "" := hall (x, t) (List.mem_cons_self _ _)
      subst ht
      simp only [lastVal?]
      by_cases hmem : r ∈ ps.map (fun p => p.1)
      · rw [ih (fun q hq => hall q (List.mem_cons_of_mem _ hq)) hmem]
      · have hxr : x = r := by
          rw [List.map_cons] at hr
          rcases List.mem_cons.mp hr with h | h
          · exact h.symm
          · exact absurd h hmem
        have hnone : lastVal? ps r = none := by
          cases hv : lastVal? ps r with
          | none => rfl
          | some v =>
              have hs := lastVal_isSome ps r
              rw [hv] at hs
              exact absurd ((any_fst_iff ps r).mp hs.symm) hmem
        rw [hnone, if_pos hxr]

theorem lastVal_padZip_beyond : ∀ (raws trans : List String) (i : Nat)
    (r : String), trans.length ≤ i → raws.get? i = some r →
      lastVal? (padZip raws trans) r = some "" := by
  intro raws
  induction raws with
  | nil => intro trans i r _ hget; cases hget
  | cons x xs ih =>
      intro trans i r hlen hget
      cases trans with
      | nil =>
          apply lastVal_all_empty (padZip_nil_all_empty (x :: xs))
          rw [padZip_map_fst]
          exact List.get?_mem hget
      | cons t ts =>
          cases i with
          | zero => simp at hlen
          | succ j =>
              have hget' : xs.get? j = some r := hget
              have hlen' : ts.length ≤ j := by simpa using hlen
              have := ih ts j r hlen' hget'
              simp only [padZip, lastVal?, this]

/-- **C3**: a length mismatch between raw and translation arrays is only a
warning — the merge still succeeds with exit code 0, and every raw string
whose (last) occurrence lies beyond the end of the translation array is
recorded with an empty-string translation text for the given locale. -/
theorem C3_merge_length_mismatch (l a : String) (raws trans : List String)
    (store : List Json) (hw : wfStore store = true)
    (hlen : raws.length ≠ trans.length) :
    mismatch_warning raws trans = true ∧
      ∃ s', merge_result l a raws trans store = (0, some s') ∧
        ∀ i r, trans.length ≤ i → raws.get? i = some r →
          ∃ e, lastRawEntry s' r = some e ∧
            localeEntryOf e l = some (mkTransEntry "" a) := by
  constructor
  · simp [mismatch_warning, hlen]
  · have hs := @merge_isSome_of_wf l a raws trans store hw
    cases hm : merge_translations l a raws trans store with
    | none => rw [hm] at hs; cases hs
    | some s' =>
        refine ⟨s', by unfold merge_result; rw [hm], ?_⟩
        intro i r hi hget
        obtain ⟨e, he, hloc⟩ := merge_final_value hm (List.get?_mem hget)
        rw [lastVal_padZip_beyond raws trans i r hi hget] at hloc
        exact ⟨e, he, hloc⟩

/-- Concrete witness for C3: two raw strings, one translation. -/
theorem C3_merge_length_mismatch_witness :
    mismatch_warning ["あ", "い"] ["x"] = true ∧
      ∃ s', merge_result "zh-CN" "alice" ["あ", "い"] ["x"] [] = (0, some s') ∧
        ∀ i r, (["x"] : List String).length ≤ i →
          (["あ", "い"] : List String).get? i = some r →
          ∃ e, lastRawEntry s' r = some e ∧
            localeEntryOf e "zh-CN" = some (mkTransEntry "" "alice") :=
  C3_merge_length_mismatch "zh-CN" "alice" ["あ", "い"] ["x"] []
    (by decide) (by decide)

/-! ## `_update_output_dir_file` (todo-generator tracking reconciliation) -/

/-- Values a Python `set` can hold: lists and dicts are unhashable. -/
def jsonHashable : Json → Bool
  | .arr _ => false
  | .obj _ => false
  | _ => true

/-- Lines 143–148: the known raw values — `item["raw"]` for dict records that
have a `"raw"` key, the item itself for legacy plain strings. -/
def existing_text_strings (existing : List Json) : List Json :=
  existing.filterMap fun item =>
    match item with
    | .obj fs =>
        (match lookupKey fs "raw" with
         | some v => some v
         | none => none)
    | .str s => some (.str s)
    | _ => none

/-- `{"raw": text, "translation": {}}`. -/
def bareRecord (t : String) : Json :=
  .obj (.cons "raw" (.str t) (.cons "translation" (.obj .nil) .nil))

/-- Lines 150–164: filter the new texts against the known set and append bare
records at the end.  `none` models the `TypeError` (caught by the generic
handler, no write) when the known raw values contain an unhashable value. -/
def update_output_dir_file (existing : List Json) (newTexts : List String) :
    Option (List Json) :=
  let ets := existing_text_strings existing
  if ets.all jsonHashable then
    some (existing ++
      ((newTexts.filter (fun t => !(decide ((Json.str t) ∈ ets)))).map bareRecord))
  else none

/-- The tracking-file content written by `_update_output_dir_file` for a given
load outcome: an absent file and non-list JSON start from an empty record
list; a `json.JSONDecodeError` is caught by writing all new texts as bare
records (lines 176–189). -/
def update_output_dir_result (loadRes : Option (Except Unit Json))
    (newTexts : List String) : Option (List Json) :=
  match loadRes with
  | none => update_output_dir_file [] newTexts
  | some (.error _) => some (newTexts.map bareRecord)
  | some (.ok (.arr xs)) => update_output_dir_file xs.toList newTexts
  | some (.ok _) => update_output_dir_file [] newTexts

/-- A named field of a record entry. -/
def fieldOf (e : Json) (k : String) : Option Json :=
  match e with
  | .obj fs => lookupKey fs k
  | _ => none

/-! ## Claim C9 -/

/-- **C9**: corrupt-store recovery.  When the target store file (merger) or
the tracking file (todo-generator) holds invalid JSON, the operation warns and
proceeds from fresh contents instead of aborting: the merger loads an empty
store, behaves exactly as if the file were absent, and still exits 0; the
todo-generator writes all extracted texts as bare records. -/
theorem C9_corrupt_store_recovery (l a : String) (raws trans : List String)
    (newTexts : List String) :
    loadStore (some (.error ())) = [] ∧
      (merge_result l a raws trans (loadStore (some (.error ())))).1 = 0 ∧
      merge_result l a raws trans (loadStore (some (.error ()))) =
        merge_result l a raws trans (loadStore none) ∧
      update_output_dir_result (some (.error ())) newTexts =
        some (newTexts.map bareRecord) := by
  refine ⟨rfl, ?_, rfl, rfl⟩
  have hs := @merge_isSome_of_wf l a raws trans [] (by rfl)
  show (merge_result l a raws trans []).1 = 0
  unfold merge_result
  cases hm : merge_translations l a raws trans [] with
  | none => rw [hm] at hs; cases hs
  | some s' => rfl

/-! ## Claim C8 -/

theorem updEntry_field_frame {l a t : String} {e e' : Json}
    (h : updEntry l a t e = some e') {k : String} (hk : k ≠ "translation") :
    fieldOf e' k = fieldOf e k := by
  obtain ⟨fs, fs', rfl, hu, rfl⟩ := updEntry_some_elim h
  simp only [fieldOf]
  exact updateEntryFields_frame hu hk

/-- Pointwise relation between a store and its merge result on the positions
that already existed. -/
theorem merge_entry_rel {l a : String} {raws trans : List String}
    {store s' : List Json} (h : merge_translations l a raws trans store = some s')
    (i : Nat) (hi : i < store.length) :
    s'.getD i .null = store.getD i .null ∨
      ∃ t, updEntry l a t (store.getD i .null) = some (s'.getD i .null) := by
  obtain ⟨hh, uA, huA, rfl⟩ := merge_some_elim h
  have hlen : uA.length = store.length := updateAll_length huA
  have hget : (uA ++ newEntries l a (padZip raws trans) store).getD i .null =
      uA.getD i .null := by
    rw [List.getD_append]
    omega
  rw [hget]
  have hi2 : i < uA.length := by omega
  rw [List.getD_eq_getElem store .null hi, List.getD_eq_getElem uA .null hi2]
  rcases List.forall₂_iff_get.mp (updateAll_forall2 huA) with ⟨_, hg⟩
  rcases hg i hi hi2 with he | ⟨t, ht⟩
  · exact Or.inl he
  · exact Or.inr ⟨t, ht⟩

theorem filterMap_rawOf_map_eq {u s : List Json}
    (h : u.map rawOf = s.map rawOf) :
    u.filterMap rawOf = s.filterMap rawOf := by
  have e1 : ∀ (w : List Json), w.filterMap rawOf = (w.map rawOf).filterMap id := by
    intro w
    induction w with
    | nil => rfl
    | cons e rest ih =>
        rw [List.map_cons, List.filterMap_cons, List.filterMap_cons, ih]
        cases rawOf e <;> rfl
  rw [e1, e1, h]

theorem filterMap_rawOf_map_mkNew (l a : String) (f : String → String) :
    ∀ (rs : List String),
      (rs.map (fun r => mkNewEntry l a r (f r))).filterMap rawOf = rs := by
  intro rs
  induction rs with
  | nil => rfl
  | cons r rest ih =>
      rw [List.map_cons, List.filterMap_cons, rawOf_mkNewEntry, ih]

theorem mem_filterMap_rawOf {s : List Json} {r : String} :
    r ∈ s.filterMap rawOf ↔ memRaw s r = true := by
  rw [List.mem_filterMap, memRaw, List.any_eq_true]
  constructor
  · rintro ⟨e, he, hr⟩
    exact ⟨e, he, by simp [isRawEntry, hr]⟩
  · rintro ⟨e, he, hr⟩
    refine ⟨e, he, ?_⟩
    simpa [isRawEntry] using hr

theorem existing_text_strings_append (xs ys : List Json) :
    existing_text_strings (xs ++ ys) =
      existing_text_strings xs ++ existing_text_strings ys := by
  simp [existing_text_strings, List.filterMap_append]

theorem existing_text_strings_map_bare : ∀ (ts : List String),
    existing_text_strings (ts.map bareRecord) = ts.map Json.str := by
  intro ts
  induction ts with
  | nil => rfl
  | cons t rest ih =>
      rw [List.map_cons, List.map_cons, existing_text_strings,
        List.filterMap_cons]
      rw [existing_text_strings] at ih
      rw [ih]
      simp [bareRecord, lookupKey]

/-- **C8**: store uniqueness and the append-only invariant.  When the store's
records have pairwise-distinct raw strings, a successful merge preserves that
uniqueness, keeps every pre-existing record in place (same raw skeleton, all
fields other than `translation` untouched) and only appends records; likewise
the todo-generator's tracking reconciliation, run on distinct known raw values
and de-duplicated new texts, preserves uniqueness and only appends bare
records for texts not already known. -/
theorem C8_store_uniqueness (l a : String) (raws trans : List String)
    (store s' : List Json) (existing u : List Json) (newTexts : List String)
    (hm : merge_translations l a raws trans store = some s')
    (hd1 : (store.filterMap rawOf).Nodup)
    (hu : update_output_dir_file existing newTexts = some u)
    (hd2 : (existing_text_strings existing).Nodup)
    (hn : newTexts.Nodup) :
    ((s'.filterMap rawOf).Nodup ∧
      s'.map rawOf = store.map rawOf ++
        ((dedupF raws).filter (fun r => !(memRaw store r))).map (fun r => some r) ∧
      ∀ i, i < store.length → ∀ k, k ≠ "translation" →
        fieldOf (s'.getD i .null) k = fieldOf (store.getD i .null) k) ∧
    ((existing_text_strings u).Nodup ∧
      ∃ app, u = existing ++ app ∧
        ∀ e ∈ app, ∃ t, e = bareRecord t ∧
          (Json.str t) ∉ existing_text_strings existing) := by
  constructor
  · have hmap : s'.map rawOf = store.map rawOf ++
        (newRaws (padZip raws trans) store).map (fun r => some r) := by
      obtain ⟨hh, uA, huA, rfl⟩ := merge_some_elim hm
      rw [List.map_append, updateAll_map_rawOf huA]
      congr 1
      rw [newEntries, List.map_map]
      apply List.map_congr_left
      intro r _
      simp [Function.comp, rawOf_mkNewEntry]
    refine ⟨?_, ?_, ?_⟩
    · have hfm : s'.filterMap rawOf =
          store.filterMap rawOf ++ newRaws (padZip raws trans) store := by
        obtain ⟨hh, uA, huA, rfl⟩ := merge_some_elim hm
        rw [List.filterMap_append,
          filterMap_rawOf_map_eq (updateAll_map_rawOf huA), newEntries,
          filterMap_rawOf_map_mkNew]
      rw [hfm, List.nodup_append]
      refine ⟨hd1, newRaws_nodup _ _, ?_⟩
      intro r hr hrn
      have hms := (newRaws_mem hrn).2
      have htrue := mem_filterMap_rawOf.mp hr
      rw [htrue] at hms
      cases hms
    · rw [hmap]
      congr 1
      rw [newRaws, padZip_map_fst]
    · intro i hi k hk
      rcases merge_entry_rel hm i hi with he | ⟨t, ht⟩
      · rw [he]
      · exact updEntry_field_frame ht hk
  · simp only [update_output_dir_file] at hu
    by_cases hall : (existing_text_strings existing).all jsonHashable = true
    · rw [if_pos hall] at hu
      simp only [Option.some.injEq] at hu
      subst hu
      constructor
      · rw [existing_text_strings_append, existing_text_strings_map_bare,
          List.nodup_append]
        refine ⟨hd2, ?_, ?_⟩
        · exact List.Nodup.map (fun _ _ hab => by injection hab)
            (List.Nodup.filter _ hn)
        · intro x hx hx2
          obtain ⟨t, ht, rfl⟩ := List.mem_map.mp hx2
          have := (List.mem_filter.mp ht).2
          simp only [Bool.not_eq_eq_eq_not, Bool.not_true, decide_eq_false_iff_not] at this
          exact this hx
      · refine ⟨_, rfl, ?_⟩
        intro e he
        obtain ⟨t, ht, rfl⟩ := List.mem_map.mp he
        refine ⟨t, rfl, ?_⟩
        have := (List.mem_filter.mp ht).2
        simpa using this
    · rw [if_neg hall] at hu
      cases hu

/-- Concrete witness for C8: a merge over a unique-raw store and a tracking
update over a legacy store, each adding one record. -/
theorem C8_store_uniqueness_witness :
    ((([mkNewEntry "zh-CN" "a" "あ" "x", mkNewEntry "zh-CN" "a" "い" ""] :
        List Json).filterMap rawOf).Nodup ∧
      ([mkNewEntry "zh-CN" "a" "あ" "x", mkNewEntry "zh-CN" "a" "い" ""] :
        List Json).map rawOf =
        ([mkNewEntry "zh-CN" "a" "あ" "x"] : List Json).map rawOf ++
          ((dedupF ["い"]).filter
            (fun r => !(memRaw [mkNewEntry "zh-CN" "a" "あ" "x"] r))).map
            (fun r => some r) ∧
      ∀ i, i < ([mkNewEntry "zh-CN" "a" "あ" "x"] : List Json).length →
        ∀ k, k ≠ "translation" →
        fieldOf (([mkNewEntry "zh-CN" "a" "あ" "x", mkNewEntry "zh-CN" "a" "い" ""] :
          List Json).getD i .null) k =
        fieldOf (([mkNewEntry "zh-CN" "a" "あ" "x"] : List Json).getD i .null) k) ∧
    ((existing_text_strings [Json.str "あ", bareRecord "い", bareRecord "う"]).Nodup ∧
      ∃ app, ([Json.str "あ", bareRecord "い", bareRecord "う"] : List Json) =
        [Json.str "あ", bareRecord "い"] ++ app ∧
        ∀ e ∈ app, ∃ t, e = bareRecord t ∧
          (Json.str t) ∉ existing_text_strings [Json.str "あ", bareRecord "い"]) :=
  C8_store_uniqueness "zh-CN" "a" ["い"] [""]
    [mkNewEntry "zh-CN" "a" "あ" "x"]
    [mkNewEntry "zh-CN" "a" "あ" "x", mkNewEntry "zh-CN" "a" "い" ""]
    [Json.str "あ", bareRecord "い"]
    [Json.str "あ", bareRecord "い", bareRecord "う"]
    ["あ", "い", "う"]
    (by decide) (by decide) (by decide) (by decide) (by decide)

/-! ## Claim C4: extraction classification -/

/-- ASCII Latin letters. -/
def isLatinLetter (c : Char) : Bool :=
  (0x41 ≤ c.toNat ∧ c.toNat ≤ 0x5A) ∨ (0x61 ≤ c.toNat ∧ c.toNat ≤ 0x7A)

/-- ASCII punctuation. -/
def isAsciiPunct (c : Char) : Bool :=
  (0x21 ≤ c.toNat ∧ c.toNat ≤ 0x2F) ∨ (0x3A ≤ c.toNat ∧ c.toNat ≤ 0x40) ∨
    (0x5B ≤ c.toNat ∧ c.toNat ≤ 0x60) ∨ (0x7B ≤ c.toNat ∧ c.toNat ≤ 0x7E)

def latinPunctOnly (s : String) : Bool :=
  s.data.all (fun c => isLatinLetter c || isAsciiPunct c)

/-- The extractor selects a string leaf: `process_item`'s string branch emits
something for it. -/
def selects (s : String) : Bool :=
  decide (testStr s ≠ [])

theorem testStr_eq (s : String) : testStr s =
    if stripTruthy s && is_japanese_text (decode_unicode_escapes s) then
      [decode_unicode_escapes s] else [] := by
  unfold testStr
  cases h1 : stripTruthy s
  · simp
  · cases h2 : is_japanese_text (decode_unicode_escapes s) <;> simp [h2]

theorem selects_eq (s : String) :
    selects s = (stripTruthy s && is_japanese_text (decode_unicode_escapes s)) := by
  rw [selects, testStr_eq]
  cases h : (stripTruthy s && is_japanese_text (decode_unicode_escapes s)) <;> simp

theorem isJapaneseChar_ge {c : Char} (h : isJapaneseChar c = true) :
    0x3040 ≤ c.toNat := by
  simp only [isJapaneseChar, Bool.decide_or, Bool.or_eq_true, decide_eq_true_eq] at h
  omega

theorem escHead_elim {cs : List Char} {ch : Char} {rest' : List Char}
    (h : escHead cs = some (ch, rest')) :
    ∃ a b c d, cs = '\\' :: 'u' :: a :: b :: c :: d :: rest' ∧
      isHexDig a = true ∧ isHexDig b = true ∧ isHexDig c = true ∧
      isHexDig d = true := by
  unfold escHead at h
  split at h
  · rename_i a b c d rest
    split at h
    · rename_i hhex
      simp only [Option.some.injEq, Prod.mk.injEq] at h
      obtain ⟨-, rfl⟩ := h
      exact ⟨a, b, c, d, rfl, hhex.1, hhex.2.1, hhex.2.2.1, hhex.2.2.2⟩
    · cases h
  · cases h

theorem not_japanese_of_hex {c : Char} (h : isHexDig c = true) :
    isJapaneseChar c = false := by
  simp only [isHexDig, Bool.decide_or, Bool.or_eq_true, decide_eq_true_eq] at h
  simp only [isJapaneseChar, Bool.decide_or, Bool.or_eq_false_iff,
    decide_eq_false_iff_not]
  omega

theorem mem_decodeAux_of_japanese : ∀ (n : Nat) (cs : List Char) (x : Char),
    x ∈ cs → isJapaneseChar x = true → x ∈ decodeAux n cs := by
  intro n
  induction n with
  | zero => intro cs x hx _; exact hx
  | succ n ih =>
      intro cs x hx hj
      cases cs with
      | nil => cases hx
      | cons c rest =>
          simp only [decodeAux]
          cases hesc : escHead (c :: rest) with
          | none =>
              rcases List.mem_cons.mp hx with rfl | hx2
              · exact List.mem_cons_self _ _
              · exact List.mem_cons_of_mem _ (ih rest x hx2 hj)
          | some p =>
              obtain ⟨ch, rest'⟩ := p
              obtain ⟨a, b, cc, d, heq, ha, hb, hc, hd⟩ := escHead_elim hesc
              rw [heq] at hx
              have hge := isJapaneseChar_ge hj
              have hmem : x ∈ rest' := by
                simp only [List.mem_cons] at hx
                rcases hx with rfl | rfl | rfl | rfl | rfl | rfl | hx'
                · simp at hge
                · simp at hge
                · rw [not_japanese_of_hex ha] at hj; cases hj
                · rw [not_japanese_of_hex hb] at hj; cases hj
                · rw [not_japanese_of_hex hc] at hj; cases hj
                · rw [not_japanese_of_hex hd] at hj; cases hj
                · exact hx'
              exact List.mem_cons_of_mem _ (ih rest' x hmem hj)

theorem decodeAux_of_no_escape : ∀ (n : Nat) (cs : List Char),
    hasEscAux n cs = false → decodeAux n cs = cs := by
  intro n
  induction n with
  | zero => intro cs _; rfl
  | succ n ih =>
      intro cs h
      cases cs with
      | nil => rfl
      | cons c rest =>
          simp only [hasEscAux] at h
          simp only [decodeAux]
          cases hesc : escHead (c :: rest) with
          | some p => rw [hesc] at h; cases h
          | none =>
              rw [hesc] at h
              rw [ih rest h]

theorem isPyWs_le {c : Char} (h : isPyWs c = true) : c.toNat ≤ 0x3000 := by
  simp only [isPyWs, decide_eq_true_eq] at h
  have hall : ∀ w ∈ pyWhitespace, w.toNat ≤ 0x3000 := by decide
  exact hall c h

/-- **C4 counterexample**: the string `"\uffee"` consists solely of a Latin
punctuation character (the backslash) and Latin letters, yet extraction
selects it: decoding produces U+FFEE, which lies in the Halfwidth/Fullwidth
Forms range. -/
theorem C4_counterexample :
    latinPunctOnly "\\uffee" = true ∧ selects "\\uffee" = true := by
  decide

/-- **C4 (amended)**: a string composed solely of Latin letters and
punctuation *and containing no decodable `\uXXXX` escape sequence* is never
selected; and every non-empty, non-whitespace-only string containing a
character of the four Japanese ranges is selected. -/
theorem C4_extraction_classification (s1 s2 : String)
    (h1 : latinPunctOnly s1 = true) (h2 : hasEscape s1 = false)
    (h3 : s2 ≠ "") (h4 : ∃ c ∈ s2.data, isJapaneseChar c = true) :
    selects s1 = false ∧ selects s2 = true := by
  constructor
  · rw [selects_eq]
    have hdec : decode_unicode_escapes s1 = s1 := by
      unfold decode_unicode_escapes decodeChars
      unfold hasEscape at h2
      rw [decodeAux_of_no_escape _ _ h2]
    rw [hdec]
    have hjap : is_japanese_text s1 = false := by
      rw [is_japanese_text, List.any_eq_false]
      intro c hc
      rw [latinPunctOnly, List.all_eq_true] at h1
      have := h1 c hc
      simp only [isLatinLetter, isAsciiPunct, Bool.decide_or, Bool.or_eq_true,
        decide_eq_true_eq] at this
      simp only [isJapaneseChar, Bool.decide_or, Bool.or_eq_true,
        decide_eq_true_eq]
      omega
    rw [hjap]
    simp
  · rw [selects_eq]
    obtain ⟨c, hc, hj⟩ := h4
    have hstrip : stripTruthy s2 = true := by
      rw [stripTruthy, List.any_eq_true]
      refine ⟨c, hc, ?_⟩
      have hge := isJapaneseChar_ge hj
      by_cases hw : isPyWs c = true
      · have := isPyWs_le hw
        omega
      · simp only [Bool.not_eq_true] at hw
        simp [hw]
    have hjap : is_japanese_text (decode_unicode_escapes s2) = true := by
      rw [is_japanese_text, List.any_eq_true]
      exact ⟨c, mem_decodeAux_of_japanese _ _ _ hc hj, hj⟩
    rw [hstrip, hjap]
    rfl

/-- Concrete witness for C4 (amended). -/
theorem C4_extraction_classification_witness :
    selects "Hello!" = false ∧ selects "あ!" = true :=
  C4_extraction_classification "Hello!" "あ!" (by decide) (by decide)
    (by decide) (by decide)

/-! ## Claim C5: output multiplicity of the extractor -/

mutual

/-- Number of string leaves anywhere in the value whose emitted (decoded) text
is `t` — one per occurrence, no special-casing. -/
def leafCnt (t : String) : Json → Nat
  | .str s => (testStr s).count t
  | .arr xs => leafCntL t xs
  | .obj fs => leafCntF t fs
  | _ => 0

def leafCntL (t : String) : JsonList → Nat
  | .nil => 0
  | .cons x xs => leafCnt t x + leafCntL t xs

def leafCntF (t : String) : JsonFields → Nat
  | .nil => 0
  | .cons _ v fs => leafCnt t v + leafCntF t fs

end

mutual

/-- Number of mappings anywhere in the value whose `"value"` field is a string
emitting `t` — the extra, eager emissions of `process_item`. -/
def valCnt (t : String) : Json → Nat
  | .arr xs => valCntL t xs
  | .obj fs => (valueSpecial fs).count t + valCntF t fs
  | _ => 0

def valCntL (t : String) : JsonList → Nat
  | .nil => 0
  | .cons x xs => valCnt t x + valCntL t xs

def valCntF (t : String) : JsonFields → Nat
  | .nil => 0
  | .cons _ v fs => valCnt t v + valCntF t fs

end

mutual

theorem extract_count (t : String) : ∀ (v : Json),
    (extract_japanese_texts v).count t = leafCnt t v + valCnt t v
  | .null => by simp [extract_japanese_texts, leafCnt, valCnt]
  | .bool b => by simp [extract_japanese_texts, leafCnt, valCnt]
  | .num n => by simp [extract_japanese_texts, leafCnt, valCnt]
  | .str s => by simp [extract_japanese_texts, leafCnt, valCnt]
  | .arr xs => by
      simp [extract_japanese_texts, leafCnt, valCnt, extractList_count t xs]
  | .obj fs => by
      simp only [extract_japanese_texts, leafCnt, valCnt, List.count_append,
        extractFields_count t fs]
      omega

theorem extractList_count (t : String) : ∀ (xs : JsonList),
    (extractList xs).count t = leafCntL t xs + valCntL t xs
  | .nil => by simp [extractList, leafCntL, valCntL]
  | .cons x xs => by
      simp only [extractList, leafCntL, valCntL, List.count_append,
        extract_count t x, extractList_count t xs]
      omega

theorem extractFields_count (t : String) : ∀ (fs : JsonFields),
    (extractFields fs).count t = leafCntF t fs + valCntF t fs
  | .nil => by simp [extractFields, leafCntF, valCntF]
  | .cons k v fs => by
      simp only [extractFields, leafCntF, valCntF, List.count_append,
        extract_count t v, extractFields_count t fs]
      omega

end

/-- **C5 counterexample**: a mapping whose `"value"` field is a qualifying
string makes the extractor emit that string *twice* (once eagerly, once while
traversing the mapping's values), although the tree holds a single string
leaf; with another field present, the eager emission also precedes
strings that come first in document order. -/
theorem C5_counterexample :
    extract_japanese_texts (.obj (.cons "value" (.str "あ") .nil)) =
      ["あ", "あ"] ∧
    leafCnt "あ" (.obj (.cons "value" (.str "あ") .nil)) = 1 ∧
    extract_japanese_texts
        (.obj (.cons "a" (.str "あい") (.cons "value" (.str "うえ") .nil))) =
      ["うえ", "あい", "うえ"] := by
  decide

/-- **C5 (amended)**: for every JSON value and every output text, the number
of times the extractor emits that text equals the number of qualifying string
leaves emitting it (one per occurrence anywhere in the tree) *plus* one extra
for each mapping whose `"value"` field is such a string — i.e. every string
leaf is tested once, except strings under a `"value"` key, which are tested
twice and contribute two output elements. -/
theorem C5_extraction_multiplicity (v : Json) (t : String) :
    (extract_japanese_texts v).count t = leafCnt t v + valCnt t v :=
  extract_count t v

/-! ## Claim C6: de-duplication -/

theorem filter_ne_absorb_mem {x : String} {acc : List String} (hx : x ∈ acc) :
    ∀ (l : List String),
      ((l.filter (fun y => y ≠ x)).filter (fun y => y ∉ acc)) =
        l.filter (fun y => y ∉ acc) := by
  intro l
  induction l with
  | nil => rfl
  | cons y ys ih =>
      by_cases hyx : y = x
      · subst hyx
        rw [List.filter_cons_of_neg (by simp), List.filter_cons_of_neg (by simp [hx])]
        exact ih
      · rw [List.filter_cons_of_pos (by simp [hyx])]
        by_cases hya : y ∈ acc
        · rw [List.filter_cons_of_neg (by simp [hya]),
            List.filter_cons_of_neg (by simp [hya])]
          exact ih
        · rw [List.filter_cons_of_pos (by simp [hya]),
            List.filter_cons_of_pos (by simp [hya]), ih]

theorem filter_not_mem_append_single {x : String} {acc : List String} :
    ∀ (l : List String),
      l.filter (fun y => y ∉ acc ++ [x]) =
        (l.filter (fun y => y ≠ x)).filter (fun y => y ∉ acc) := by
  intro l
  induction l with
  | nil => rfl
  | cons y ys ih =>
      by_cases hyx : y = x
      · subst hyx
        rw [List.filter_cons_of_neg (by simp), List.filter_cons_of_neg (by simp)]
        exact ih
      · rw [List.filter_cons_of_pos (p := fun y => decide ¬(y = x)) (by simp [hyx])]
        by_cases hya : y ∈ acc
        · rw [List.filter_cons_of_neg (by simp [hya]),
            List.filter_cons_of_neg (by simp [hya])]
          exact ih
        · rw [List.filter_cons_of_pos (by simp [hya, hyx]),
            List.filter_cons_of_pos (by simp [hya]), ih]

theorem foldl_dedupStep_eq : ∀ (l acc : List String),
    l.foldl dedupStep acc = acc ++ (dedupF l).filter (fun y => y ∉ acc) := by
  intro l
  induction l with
  | nil => intro acc; simp [dedupF]
  | cons x xs ih =>
      intro acc
      rw [List.foldl_cons]
      by_cases hx : x ∈ acc
      · rw [show dedupStep acc x = acc from by simp only [dedupStep, if_pos hx],
          ih acc, dedupF]
        rw [List.filter_cons_of_neg (by simp [hx]), filter_ne_absorb_mem hx]
      · rw [show dedupStep acc x = acc ++ [x] from by
            simp only [dedupStep, if_neg hx],
          ih (acc ++ [x]), dedupF]
        rw [List.filter_cons_of_pos (by simp [hx]), filter_not_mem_append_single]
        simp

theorem pyDedup_eq_dedupF (l : List String) : pyDedup l = dedupF l := by
  rw [pyDedup, foldl_dedupStep_eq l []]
  simp

theorem dedupF_of_nodup : ∀ {l : List String}, l.Nodup → dedupF l = l := by
  intro l
  induction l with
  | nil => intro _; rfl
  | cons x xs ih =>
      intro hnd
      rw [List.nodup_cons] at hnd
      rw [dedupF, ih hnd.2, List.filter_eq_self.mpr]
      intro y hy
      simp only [ne_eq, decide_not, Bool.not_eq_true', decide_eq_false_iff_not]
      intro hcon
      subst hcon
      exact hnd.1 hy

theorem dedupF_pairwise : ∀ (l : List String),
    List.Pairwise (fun a b => l.indexOf a < l.indexOf b) (dedupF l) := by
  intro l
  induction l with
  | nil => simp [dedupF]
  | cons x xs ih =>
      rw [dedupF]
      constructor
      · intro y hy
        have hyx : y ≠ x := by
          have := (List.mem_filter.mp hy).2
          simpa using this
        rw [List.indexOf_cons_self, List.indexOf_cons_ne _ (Ne.symm hyx)]
        omega
      · have hpw : List.Pairwise (fun a b => xs.indexOf a < xs.indexOf b)
            ((dedupF xs).filter (fun y => y ≠ x)) :=
          List.Pairwise.sublist (List.filter_sublist _) ih
        refine List.Pairwise.imp_of_mem ?_ hpw
        intro a b ha hb hab
        have hax : a ≠ x := by simpa using (List.mem_filter.mp ha).2
        have hbx : b ≠ x := by simpa using (List.mem_filter.mp hb).2
        rw [List.indexOf_cons_ne _ (Ne.symm hax), List.indexOf_cons_ne _ (Ne.symm hbx)]
        omega

/-- **C6**: extraction plus de-duplication is idempotent — de-duplicating the
already de-duplicated extraction output changes nothing — and the
de-duplicated list has no duplicates, holds exactly the extracted strings,
and lists them in strictly increasing first-occurrence order (each string
once, at the position induced by its first occurrence). -/
theorem C6_dedup_idempotent (v : Json) :
    pyDedup (pyDedup (extract_japanese_texts v)) =
        pyDedup (extract_japanese_texts v) ∧
      (pyDedup (extract_japanese_texts v)).Nodup ∧
      (∀ s, s ∈ pyDedup (extract_japanese_texts v) ↔
        s ∈ extract_japanese_texts v) ∧
      List.Pairwise
        (fun a b => (extract_japanese_texts v).indexOf a <
          (extract_japanese_texts v).indexOf b)
        (pyDedup (extract_japanese_texts v)) := by
  rw [pyDedup_eq_dedupF, pyDedup_eq_dedupF]
  refine ⟨dedupF_of_nodup (dedupF_nodup _), dedupF_nodup _,
    fun s => mem_dedupF, dedupF_pairwise _⟩

/-! ## `src/generate/analyze.py` -/

/-- `set.add`: Python set membership by equality (insertion order kept here
only to give the set a concrete representation; only cardinality is used). -/
def pySetAdd (acc : List Json) (v : Json) : List Json :=
  if v ∈ acc then acc else acc ++ [v]

/-- `raw_strings.update(s)`. -/
def pySetUnion (acc s : List Json) : List Json :=
  s.foldl pySetAdd acc

/-- `load_json_as_sets` over the decoded item list: strings are added as-is,
dicts contribute `item["raw"]` (a `KeyError` when absent aborts, as does a
`TypeError` when the value is unhashable), anything else is skipped. -/
def load_json_as_sets_aux : List Json → List Json → Option (List Json)
  | [], acc => some acc
  | item :: rest, acc =>
      match item with
      | .str s => load_json_as_sets_aux rest (pySetAdd acc (.str s))
      | .obj fs =>
          (match lookupKey fs "raw" with
           | none => none
           | some v =>
               if jsonHashable v then load_json_as_sets_aux rest (pySetAdd acc v)
               else none)
      | _ => load_json_as_sets_aux rest acc

/-- A file for `load_json_as_sets`; non-list JSON raises `ValueError`. -/
def loadSetFile (f : Json) : Option (List Json) :=
  match f with
  | .arr xs => load_json_as_sets_aux xs.toList []
  | _ => none

/-- Python truthiness of a JSON value, as used on `translation[locale]["text"]`. -/
def jsonTruthy : Json → Bool
  | .null => false
  | .bool b => b
  | .num n => decide (n ≠ 0)
  | .str s => decide (s ≠ "")
  | .arr .nil => false
  | .arr _ => true
  | .obj .nil => false
  | .obj _ => true

def startsWithSeq : List Char → List Char → Bool
  | [], _ => true
  | _ :: _, [] => false
  | a :: as, b :: bs => a = b && startsWithSeq as bs

/-- Substring test, Python `needle in haystack` on strings. -/
def containsSeq (needle : List Char) : List Char → Bool
  | [] => needle.isEmpty
  | c :: t => startsWithSeq needle (c :: t) || containsSeq needle t

/-- `load_locale_count` over the decoded item list: non-dict items are
skipped; `item["translation"]` must exist (else `KeyError`); `locale in` a
non-dict translation follows Python semantics (substring test on strings,
membership on lists, `TypeError` otherwise), and a hit then fails on the
`[locale]` indexing; a dict translation contributes 1 when
`translation[locale]["text"]` is truthy. -/
def load_locale_count_aux (locale : String) : List Json → Nat → Option Nat
  | [], cnt => some cnt
  | item :: rest, cnt =>
      match item with
      | .obj fs =>
          (match lookupKey fs "translation" with
           | none => none
           | some (.obj tf) =>
               (match lookupKey tf locale with
                | none => load_locale_count_aux locale rest cnt
                | some (.obj ef) =>
                    (match lookupKey ef "text" with
                     | none => none
                     | some tv =>
                         load_locale_count_aux locale rest
                           (cnt + if jsonTruthy tv then 1 else 0))
                | some _ => none)
           | some (.str s) =>
               if containsSeq locale.data s.data then none
               else load_locale_count_aux locale rest cnt
           | some (.arr xs) =>
               if (Json.str locale) ∈ xs.toList then none
               else load_locale_count_aux locale rest cnt
           | some _ => none)
      | _ => load_locale_count_aux locale rest cnt

/-- A file for `load_locale_count`; non-list JSON raises `ValueError`. -/
def loadCountFile (locale : String) (f : Json) : Option Nat :=
  match f with
  | .arr xs => load_locale_count_aux locale xs.toList 0
  | _ => none

/-- First loop of `analyze_translation_progress`: union the raw sets of every
file of `rawDir`. -/
def processRawDir : List Json → List Json → Option (List Json)
  | [], acc => some acc
  | f :: fs, acc =>
      match loadSetFile f with
      | none => none
      | some s => processRawDir fs (pySetUnion acc s)

/-- Second loop: union the raw sets of every file of `outputDir` and sum the
per-file translated counts (not de-duplicated across files). -/
def processOutDir (locale : String) : List Json → List Json → Nat →
    Option (List Json × Nat)
  | [], acc, cnt => some (acc, cnt)
  | f :: fs, acc, cnt =>
      match loadSetFile f with
      | none => none
      | some s =>
          match loadCountFile locale f with
          | none => none
          | some c => processOutDir locale fs (pySetUnion acc s) (cnt + c)

/-- `analyze_translation_progress`: `(total, translated)` where `total` is the
cardinality of the union of raw strings over all files of both directories
and `translated` the per-file sum. -/
def analyze_translation_progress (rawFiles outFiles : List Json)
    (locale : String) : Option (Nat × Nat) :=
  match processRawDir rawFiles [] with
  | none => none
  | some s1 =>
      match processOutDir locale outFiles s1 0 with
      | none => none
      | some (s2, cnt) => some (s2.length, cnt)

/-! ## Claim C7 -/

/-- **C7**: with raw files contributing `{A, B}` and one output store holding
records for `A`, `B`, `C` of which only `A` has a non-empty `zh-CN` text,
`analyze_translation_progress` returns `total = 3` (de-duplicated union) and
`translatedCount = 1`; and the translated count is a per-file sum — the same
translated record appearing in two output files is counted twice while the
total still de-duplicates. -/
theorem C7_progress_count :
    analyze_translation_progress
        [Json.arr (.cons (.str "A") (.cons (.str "B") .nil))]
        [Json.arr (.cons (mkNewEntry "zh-CN" "" "A" "x")
          (.cons (bareRecord "B") (.cons (bareRecord "C") .nil)))]
        "zh-CN" = some (3, 1) ∧
      analyze_translation_progress []
        [Json.arr (.cons (mkNewEntry "zh-CN" "" "A" "x") .nil),
          Json.arr (.cons (mkNewEntry "zh-CN" "" "A" "x") .nil)]
        "zh-CN" = some (1, 2) := by
  decide

/-! ## `write_translation_progress` -/

/-- `locale.replace('-', '--')`. -/
def sheilds_locale (locale : String) : String :=
  ⟨(locale.data.map (fun c => if c = '-' then ['-', '-'] else [c])).flatten⟩

/-- The shields.io badge line (without trailing newline). -/
def badge_url (locale : String) (translated total : Nat) : String :=
  "![translation " ++ locale ++ "](https://img.shields.io/badge/translation_" ++
    sheilds_locale locale ++ "-" ++ toString translated ++ "%2F" ++
    toString total ++ "-blue)"

def toLowerStr (s : String) : String :=
  ⟨s.data.map Char.toLower⟩

/-- `"## translation progress" in line.lower()`. -/
def headingIn (line : String) : Bool :=
  containsSeq ("## translation progress".data) (toLowerStr line).data

/-- Python `str.strip()`. -/
def pyStrip (s : String) : String :=
  ⟨((s.data.dropWhile isPyWs).reverse.dropWhile isPyWs).reverse⟩

/-- The structure synthesized when the README does not exist. -/
def defaultReadmeLines : List String :=
  ["# translation\n", "\n", "---\n", "\n", "## translation progress\n",
   "\n", "---\n"]

/-- The search loop for the `translation progress` section: the last heading
line seen so far becomes `start_idx`; the first `---` line after a heading
becomes `end_idx` and stops the scan. -/
def findSection : List String → Nat → Option Nat → Option Nat × Option Nat
  | [], _, st => (st, none)
  | lin :: rest, i, st =>
      if headingIn lin then findSection rest (i + 1) (some i)
      else if st.isSome && decide (pyStrip lin = "---") then (st, some i)
      else findSection rest (i + 1) st

/-- The badge-replacement search over `range(start_idx + 1, end_idx if
end_idx else len(lines))`. -/
def findBadgeIdx (lines : List String) (pat : String) (start stop : Nat) :
    Option Nat :=
  (List.range lines.length).find? (fun i =>
    decide (start + 1 ≤ i) && decide (i < stop) &&
      containsSeq pat.data (lines.getD i "").data)

/-- `list.insert(i, x)` (appends when the index is past the end). -/
def insertAt : Nat → String → List String → List String
  | 0, s, l => s :: l
  | _ + 1, s, [] => [s]
  | n + 1, s, x :: l => x :: insertAt n s l

/-- `write_translation_progress`: the README lines written back, paired with
whether the final progress `print` raises `ZeroDivisionError`
(`translated/total` with `total == 0`).  The file is written *before* that
print runs, so the first component is on disk even when the second is
`true`. -/
def write_translation_progress (linesOpt : Option (List String))
    (total translated : Nat) (locale : String) : List String × Bool :=
  let badge := badge_url locale translated total
  let lines := match linesOpt with
    | some ls => ls
    | none => defaultReadmeLines
  let se := findSection lines 0 none
  let newLines :=
    match se.1 with
    | none =>
        lines ++ ["\n", "## translation progress\n", "\n", badge ++ "\n",
          "\n", "---\n"]
    | some start =>
        let stop := match se.2 with
          | some e => if e = 0 then lines.length else e
          | none => lines.length
        match findBadgeIdx lines ("translation_" ++ sheilds_locale locale)
            start stop with
        | some i => lines.set i (badge ++ "\n")
        | none =>
            match se.2 with
            | some e => insertAt e (badge ++ "\n") lines
            | none => lines ++ [badge ++ "\n", "---\n"]
  (newLines, total == 0)

theorem mem_insertAt (s : String) : ∀ (n : Nat) (l : List String),
    s ∈ insertAt n s l := by
  intro n
  induction n with
  | zero => intro l; exact List.mem_cons_self _ _
  | succ n ih =>
      intro l
      cases l with
      | nil => exact List.mem_cons_self _ _
      | cons x xs => exact List.mem_cons_of_mem _ (ih xs)

theorem mem_set_self (a : String) : ∀ (l : List String) (i : Nat),
    i < l.length → a ∈ l.set i a := by
  intro l
  induction l with
  | nil => intro i hi; simp at hi
  | cons x xs ih =>
      intro i hi
      cases i with
      | zero => exact List.mem_cons_self _ _
      | succ j =>
          rw [List.set_cons_succ]
          exact List.mem_cons_of_mem _ (ih j (by simpa using hi))

/-! ## Claim C10 -/

/-- **C10**: when `total = 0`, `write_translation_progress` still produces the
updated status document — the badge line for the locale is in the written
lines — and the unguarded percentage computation `translated/total` in the
final print raises `ZeroDivisionError` afterwards, so the generate step fails
by exception although the document was already modified (no atomicity on
error). -/
theorem C10_zero_total_division (linesOpt : Option (List String))
    (total translated : Nat) (locale : String) (h : total = 0) :
    (write_translation_progress linesOpt total translated locale).2 = true ∧
      (badge_url locale translated total ++ "\n") ∈
        (write_translation_progress linesOpt total translated locale).1 := by
  constructor
  · simp [write_translation_progress, h]
  · unfold write_translation_progress
    simp only
    set lines := (match linesOpt with
      | some ls => ls
      | none => defaultReadmeLines) with hlines
    cases hst : (findSection lines 0 none).1 with
    | none => simp
    | some start =>
        simp only
        cases hfb : findBadgeIdx lines
            ("translation_" ++ sheilds_locale locale) start
            (match (findSection lines 0 none).2 with
             | some e => if e = 0 then lines.length else e
             | none => lines.length) with
        | some i =>
            simp only
            have hi : i < lines.length := by
              have hmem := List.mem_of_find?_eq_some hfb
              simpa [List.mem_range] using hmem
            exact mem_set_self _ lines i hi
        | none =>
            simp only
            cases (findSection lines 0 none).2 with
            | some e => exact mem_insertAt _ e lines
            | none => simp

/-- Concrete witness for C10. -/
theorem C10_zero_total_division_witness :
    (write_translation_progress (some ["x\n"]) 0 5 "zh-CN").2 = true ∧
      (badge_url "zh-CN" 5 0 ++ "\n") ∈
        (write_translation_progress (some ["x\n"]) 0 5 "zh-CN").1 :=
  C10_zero_total_division (some ["x\n"]) 0 5 "zh-CN" rfl

end Linkura
